import Mathlib

set_option maxRecDepth 100000

/-!
Verification of the primordia settlement-protocol SDK (Python sources under
src/sdk-py/primordia_sdk) against its natural-language specification.

The Python modules are shallowly embedded: Python ints become Int (with the
explicit range checks of the source), Python dicts become association lists
with update-in-place semantics, Python sorted() becomes a stable insertion
sort over an executable code-point comparator, fallible code returns Except,
and the two places where the source computes with IEEE-754 binary64 floats
(the recovery formulas in dbp.py) are embedded by an exact integer model of
round-to-nearest-even double arithmetic.  Cryptographic hashing and signature
verification (blake3 / ed25519 from external libraries) are modelled as
function parameters.
-/

namespace Primordia

/-! ### String ordering

Python compares strings lexicographically by Unicode code point; this is the
order used by sorted() on keys, agent ids and hashes.  We embed it as an
executable Bool comparator on the underlying character lists (Char lt is
code-point lt). -/

def listCharLeb : List Char → List Char → Bool
  | [], _ => true
  | _ :: _, [] => false
  | a :: as, b :: bs => if a < b then true else if b < a then false else listCharLeb as bs

/-- Code-point lexicographic order on strings, as a decidable proposition. -/
def sleProp (s t : String) : Prop := listCharLeb s.data t.data = true

instance : DecidableRel sleProp := fun s t => instDecidableEqBool (listCharLeb s.data t.data) true

theorem listCharLeb_total (a b : List Char) : listCharLeb a b = true ∨ listCharLeb b a = true := by
  induction a generalizing b with
  | nil => left; rfl
  | cons x xs ih =>
    cases b with
    | nil => right; rfl
    | cons y ys =>
      rcases lt_trichotomy x y with h | h | h
      · left; simp [listCharLeb, h]
      · subst h
        rcases ih ys with h2 | h2
        · left; simp [listCharLeb, h2]
        · right; simp [listCharLeb, h2]
      · right; simp [listCharLeb, h, not_lt.mpr h.le]

theorem listCharLeb_trans {a b c : List Char} (hab : listCharLeb a b = true)
    (hbc : listCharLeb b c = true) : listCharLeb a c = true := by
  induction a generalizing b c with
  | nil => rfl
  | cons x xs ih =>
    cases b with
    | nil => simp [listCharLeb] at hab
    | cons y ys =>
      cases c with
      | nil => simp [listCharLeb] at hbc
      | cons z zs =>
        rcases lt_trichotomy x y with h1 | h1 | h1
        · rcases lt_trichotomy y z with h2 | h2 | h2
          · simp [listCharLeb, h1.trans h2]
          · subst h2; simp [listCharLeb, h1]
          · simp [listCharLeb, h2, not_lt.mpr h2.le] at hbc
        · subst h1
          rcases lt_trichotomy x z with h2 | h2 | h2
          · simp [listCharLeb, h2]
          · subst h2
            simp only [listCharLeb, lt_irrefl, if_false] at hab hbc ⊢
            exact ih hab hbc
          · simp [listCharLeb, h2, not_lt.mpr h2.le] at hbc
        · simp [listCharLeb, h1, not_lt.mpr h1.le] at hab

theorem listCharLeb_antisymm {a b : List Char} (hab : listCharLeb a b = true)
    (hba : listCharLeb b a = true) : a = b := by
  induction a generalizing b with
  | nil =>
    cases b with
    | nil => rfl
    | cons y ys => simp [listCharLeb] at hba
  | cons x xs ih =>
    cases b with
    | nil => simp [listCharLeb] at hab
    | cons y ys =>
      rcases lt_trichotomy x y with h | h | h
      · simp [listCharLeb, h, not_lt.mpr h.le] at hba
      · subst h
        simp only [listCharLeb, lt_irrefl, if_false] at hab hba
        exact congrArg (x :: ·) (ih hab hba)
      · simp [listCharLeb, h, not_lt.mpr h.le] at hab

instance : IsTotal String sleProp := ⟨fun s t => listCharLeb_total s.data t.data⟩

instance : IsTrans String sleProp := ⟨fun _ _ _ => listCharLeb_trans⟩

instance : IsAntisymm String sleProp :=
  ⟨fun s t hst hts => by
    cases s; cases t; exact congrArg String.mk (listCharLeb_antisymm hst hts)⟩

/-- Embedding of Python sorted() on a list of strings (code-point order). -/
def sortStr (l : List String) : List String := List.insertionSort sleProp l

theorem sortStr_sorted (l : List String) : List.Sorted sleProp (sortStr l) :=
  List.sorted_insertionSort sleProp l

theorem sortStr_perm (l : List String) : List.Perm (sortStr l) l :=
  List.perm_insertionSort sleProp l

/-- Two lists of strings that are permutations of each other have the same
sort; this is what makes Python iteration order irrelevant wherever the source
sorts before emitting. -/
theorem sortStr_eq_of_perm {l₁ l₂ : List String} (h : List.Perm l₁ l₂) :
    sortStr l₁ = sortStr l₂ :=
  List.eq_of_perm_of_sorted ((sortStr_perm l₁).trans (h.trans (sortStr_perm l₂).symm))
    (sortStr_sorted l₁) (sortStr_sorted l₂)

/-! ### Python dict as an association list

A Python dict is an insertion-ordered map with unique keys; dget/dset embed
d.get(k, default) and d[k] = v (update in place, append when absent). -/

def dget : List (String × Int) → String → Int → Int
  | [], _, dflt => dflt
  | (k', v) :: rest, k, dflt => if k' = k then v else dget rest k dflt

def dset : List (String × Int) → String → Int → List (String × Int)
  | [], k, v => [(k, v)]
  | (k', v') :: rest, k, v => if k' = k then (k, v) :: rest else (k', v') :: dset rest k v

theorem dget_cons_eq {k₀ k : String} {v₀ dflt : Int} {rest : List (String × Int)}
    (h : k₀ = k) : dget ((k₀, v₀) :: rest) k dflt = v₀ := by
  simp [dget, h]

theorem dget_cons_ne {k₀ k : String} {v₀ dflt : Int} {rest : List (String × Int)}
    (h : ¬ k₀ = k) : dget ((k₀, v₀) :: rest) k dflt = dget rest k dflt := by
  simp [dget, h]

theorem dset_cons_eq {k₀ k : String} {v₀ v : Int} {rest : List (String × Int)}
    (h : k₀ = k) : dset ((k₀, v₀) :: rest) k v = (k, v) :: rest := by
  simp [dset, h]

theorem dset_cons_ne {k₀ k : String} {v₀ v : Int} {rest : List (String × Int)}
    (h : ¬ k₀ = k) : dset ((k₀, v₀) :: rest) k v = (k₀, v₀) :: dset rest k v := by
  simp [dset, h]

theorem dget_dset_self (d : List (String × Int)) (k : String) (v dflt : Int) :
    dget (dset d k v) k dflt = v := by
  induction d with
  | nil => simp [dset, dget]
  | cons p rest ih =>
    obtain ⟨k₀, v₀⟩ := p
    by_cases h : k₀ = k
    · rw [dset_cons_eq h, dget_cons_eq rfl]
    · rw [dset_cons_ne h, dget_cons_ne h, ih]

theorem dget_dset_ne (d : List (String × Int)) {k k' : String} (h : k' ≠ k) (v dflt : Int) :
    dget (dset d k' v) k dflt = dget d k dflt := by
  induction d with
  | nil => simp [dset, dget, h]
  | cons p rest ih =>
    obtain ⟨k₀, v₀⟩ := p
    by_cases h0 : k₀ = k'
    · have hk : ¬ k₀ = k := fun hh => h (h0 ▸ hh)
      rw [dset_cons_eq h0, dget_cons_ne h, dget_cons_ne hk]
    · by_cases h1 : k₀ = k
      · rw [dset_cons_ne h0, dget_cons_eq h1, dget_cons_eq h1]
      · rw [dset_cons_ne h0, dget_cons_ne h1, dget_cons_ne h1, ih]

theorem mem_keys_dset (d : List (String × Int)) (k k' : String) (v : Int) :
    k ∈ (dset d k' v).map Prod.fst ↔ k = k' ∨ k ∈ d.map Prod.fst := by
  induction d with
  | nil => simp [dset]
  | cons p rest ih =>
    obtain ⟨k₀, v₀⟩ := p
    by_cases h0 : k₀ = k'
    · rw [dset_cons_eq h0]
      simp only [List.map_cons, List.mem_cons, h0]
      tauto
    · rw [dset_cons_ne h0]
      simp only [List.map_cons, List.mem_cons, ih]
      tauto

theorem nodup_keys_dset (d : List (String × Int)) (k : String) (v : Int)
    (h : (d.map Prod.fst).Nodup) : ((dset d k v).map Prod.fst).Nodup := by
  induction d with
  | nil => simp [dset]
  | cons p rest ih =>
    obtain ⟨k₀, v₀⟩ := p
    simp only [List.map_cons, List.nodup_cons] at h
    by_cases h0 : k₀ = k
    · rw [dset_cons_eq h0]
      simp only [List.map_cons, List.nodup_cons]
      exact ⟨h0 ▸ h.1, h.2⟩
    · rw [dset_cons_ne h0]
      simp only [List.map_cons, List.nodup_cons]
      refine ⟨fun hc => ?_, ih h.2⟩
      rcases (mem_keys_dset rest k₀ k v).mp hc with h1 | h1
      · exact h0 h1
      · exact h.1 h1

theorem mem_of_mem_dset {d : List (String × Int)} {k k' : String} {v v' : Int}
    (h : (k, v) ∈ dset d k' v') : (k, v) ∈ d ∨ (k = k' ∧ v = v') := by
  induction d with
  | nil =>
    simp only [dset, List.mem_cons, List.not_mem_nil, or_false] at h
    right
    exact ⟨congrArg Prod.fst h, congrArg Prod.snd h⟩
  | cons p rest ih =>
    obtain ⟨k₀, v₀⟩ := p
    by_cases h0 : k₀ = k'
    · rw [dset_cons_eq h0] at h
      rcases List.mem_cons.mp h with h1 | h1
      · right; exact ⟨congrArg Prod.fst h1, congrArg Prod.snd h1⟩
      · left; exact List.mem_cons_of_mem _ h1
    · rw [dset_cons_ne h0] at h
      rcases List.mem_cons.mp h with h1 | h1
      · left; exact h1 ▸ List.mem_cons_self _ _
      · rcases ih h1 with h2 | h2
        · left; exact List.mem_cons_of_mem _ h2
        · right; exact h2

theorem dset_eq_append {d : List (String × Int)} {k : String} (v : Int)
    (h : k ∉ d.map Prod.fst) : dset d k v = d ++ [(k, v)] := by
  induction d with
  | nil => rfl
  | cons p rest ih =>
    obtain ⟨k₀, v₀⟩ := p
    simp only [List.map_cons, List.mem_cons] at h
    push_neg at h
    have h1 : ¬ k₀ = k := fun hh => h.1 hh.symm
    rw [dset_cons_ne h1, ih h.2, List.cons_append]

/-! ### Decimal digits

Fuel-based base-10 digit extraction (least significant first), kernel-reducible
and provably equal to Mathlib's Nat.digits.  It embeds Python str() on ints. -/

def digitsFuel : Nat → Nat → List Nat
  | 0, _ => []
  | fuel + 1, n => if n = 0 then [] else n % 10 :: digitsFuel fuel (n / 10)

def natDigits (n : Nat) : List Nat := digitsFuel n n

theorem digitsFuel_eq (fuel n : Nat) (h : n ≤ fuel) : digitsFuel fuel n = Nat.digits 10 n := by
  induction fuel generalizing n with
  | zero =>
    have : n = 0 := Nat.le_zero.mp h
    simp [digitsFuel, this]
  | succ f ih =>
    by_cases h0 : n = 0
    · simp [digitsFuel, h0]
    · have hlt : n / 10 ≤ f := by
        have h1 : n / 10 < n := Nat.div_lt_self (Nat.pos_of_ne_zero h0) (by norm_num)
        omega
      rw [digitsFuel, if_neg h0, ih _ hlt,
        Nat.digits_def' (by norm_num : (1 : ℕ) < 10) (Nat.pos_of_ne_zero h0)]

theorem natDigits_eq (n : Nat) : natDigits n = Nat.digits 10 n := digitsFuel_eq n n le_rfl

/-- Decimal representation of a natural number; digit list most significant
first, rendered with ASCII digit characters. -/
def natStr (n : Nat) : String :=
  if n = 0 then "0" else String.mk ((natDigits n).reverse.map (fun d => Char.ofNat (48 + d)))

/-- Embedding of Python str() on an int: shortest decimal form, with a leading
minus sign for negative values. -/
def intStr (n : Int) : String :=
  if n < 0 then "-" ++ natStr n.natAbs else natStr n.toNat

/-! ### Exact model of IEEE-754 binary64 arithmetic

dbp.py computes its recovery figures with Python floats.  Those operations
(int true division, float times int, int() truncation) are all exactly
specified by IEEE-754: each produces the representable double nearest to the
exact rational result, ties to even.  The model below computes that value
exactly, with integers only: a positive rational n/d is rounded to a pair
(M, e) with value M * 2^(e-52), 2^52 <= M <= 2^53.  Subnormal and overflow
ranges are outside the magnitudes this code handles and are not modelled. -/

def log2fuel : Nat → Nat → Nat
  | 0, _ => 0
  | fuel + 1, n => if 2 ≤ n then log2fuel fuel (n / 2) + 1 else 0

/-- Floor of log2 for positive naturals (0 for 0). -/
def nlog2 (n : Nat) : Nat := log2fuel n n

/-- Does 2^E ≤ n / d hold (n, d positive)? -/
def pow2LeRat (E : Int) (n d : Nat) : Bool :=
  if 0 ≤ E then d * 2 ^ E.toNat ≤ n else d ≤ n * 2 ^ (-E).toNat

/-- Exponent e with 2^e ≤ n/d < 2^(e+1), for positive n, d. -/
def qlog2 (n d : Nat) : Int :=
  let c : Int := (nlog2 n : Int) - (nlog2 d : Int)
  if pow2LeRat c n d then c else c - 1

/-- Round N/D to the nearest integer, ties to even. -/
def rndHalfEven (N D : Nat) : Nat :=
  let p := N / D
  let r := N % D
  if 2 * r < D then p
  else if D < 2 * r then p + 1
  else if p % 2 = 0 then p else p + 1

/-- Round the positive rational n/d to the nearest binary64 value, returned as
a significand-exponent pair (M, e) of exact value M * 2^(e-52). -/
def f64pos (n d : Nat) : Nat × Int :=
  let e := qlog2 n d
  let M :=
    if 0 ≤ 52 - e then rndHalfEven (n * 2 ^ (52 - e).toNat) d
    else rndHalfEven n (d * 2 ^ (e - 52).toNat)
  (M, e)

/-- Truncation toward zero of the positive value M * 2^(e-52). -/
def f64trunc (M : Nat) (e : Int) : Nat :=
  if 52 ≤ e then M * 2 ^ (e - 52).toNat else M / 2 ^ (52 - e).toNat

/-- Embedding of the Python expression int((a / b) * c) on ints a, b, c with
b nonzero: binary64 true division, multiplication by the float conversion of
c, and truncation toward zero.  (The source only reaches this expression with
a nonzero divisor; for b = 0 Python would raise ZeroDivisionError, and the
model returns 0, a value no call site observes.) -/
def pyIntDivMul (a b c : Int) : Int :=
  if a = 0 ∨ b = 0 ∨ c = 0 then 0
  else
    let s₁ : Bool := decide (a < 0) ≠ decide (b < 0)
    let q := f64pos a.natAbs b.natAbs
    let fc := f64pos c.natAbs 1
    let s₂ : Bool := s₁ ≠ decide (c < 0)
    let E : Int := q.2 + fc.2 - 104
    let p :=
      if 0 ≤ E then f64pos (q.1 * fc.1 * 2 ^ E.toNat) 1
      else f64pos (q.1 * fc.1) (2 ^ (-E).toNat)
    let mag : Int := (f64trunc p.1 p.2 : Nat)
    if s₂ then -mag else mag

/-! ### canonical.py - canonical JSON serialization

The value domain of canonicalize: null, bool, int, float, str, list, dict.
Python dicts are embedded as association lists in insertion order; a float is
represented by its exact rational value (the payload is irrelevant, every
float is rejected).  Errors raised by the source (ValueError) are returned as
Except.error with the source's message. -/

inductive Json where
  | null
  | bool (b : Bool)
  | int (n : Int)
  | float (q : Rat)
  | str (s : String)
  | arr (elems : List Json)
  | obj (pairs : List (String × Json))

def hexDigit (n : Nat) : Char := if n < 10 then Char.ofNat (48 + n) else Char.ofNat (87 + n)

/-- Four lowercase hex digits, as produced by the format f-string u04x. -/
def hex4 (n : Nat) : String :=
  String.mk [hexDigit (n / 4096 % 16), hexDigit (n / 256 % 16), hexDigit (n / 16 % 16),
    hexDigit (n % 16)]

/-- Escape one character per the escape table of escape_string. -/
def escapeChar (c : Char) : String :=
  if c = '"' then "\\\""
  else if c = '\\' then "\\\\"
  else if c = '\x08' then "\\b"
  else if c = '\x0c' then "\\f"
  else if c = '\n' then "\\n"
  else if c = '\r' then "\\r"
  else if c = '\t' then "\\t"
  else if c.toNat < 0x20 then "\\u" ++ hex4 c.toNat
  else String.mk [c]

/-- Embedding of escape_string: a double quote, the escaped characters, a
double quote. -/
def escape_string (s : String) : String :=
  "\"" ++ String.join (s.data.map escapeChar) ++ "\""

def joinComma : List String → String
  | [] => ""
  | [s] => s
  | s :: rest => s ++ "," ++ joinComma rest

/-- Key order on serialized pairs: compare the raw keys. -/
def pairLeProp (p q : String × String) : Prop := sleProp p.1 q.1

instance : DecidableRel pairLeProp := fun p q => (inferInstance : Decidable (sleProp p.1 q.1))

instance : IsTotal (String × String) pairLeProp := ⟨fun p q => IsTotal.total p.1 q.1⟩

instance : IsTrans (String × String) pairLeProp :=
  ⟨fun _ _ _ h1 h2 => listCharLeb_trans h1 h2⟩

mutual

/-- Embedding of canonicalize.  The source sorts the keys and then serializes
each value; serialization of a value does not depend on its position, so the
embedding serializes the values in insertion order first (canonPairs) and
then sorts the serialized pairs by raw key, which yields the same output for
the unique-key pair lists that represent Python dicts. -/
def canonicalize : Json → Except String String
  | .null => .ok "null"
  | .bool b => .ok (if b then "true" else "false")
  | .int n =>
      if n < -(2 ^ 53) + 1 ∨ 2 ^ 53 - 1 < n then .error "Number outside safe integer range"
      else .ok (intStr n)
  | .float _ => .error "Floats forbidden in canonical JSON"
  | .str s => .ok (escape_string s)
  | .arr es => do
      let cs ← canonList es
      .ok ("[" ++ joinComma cs ++ "]")
  | .obj ps => do
      let cs ← canonPairs ps
      let sorted := List.insertionSort pairLeProp cs
      .ok ("\x7b" ++ joinComma (sorted.map (fun p => escape_string p.1 ++ ":" ++ p.2)) ++ "\x7d")

def canonList : List Json → Except String (List String)
  | [] => .ok []
  | v :: vs => do
      let c ← canonicalize v
      let cs ← canonList vs
      .ok (c :: cs)

def canonPairs : List (String × Json) → Except String (List (String × String))
  | [] => .ok []
  | (k, v) :: ps => do
      let c ← canonicalize v
      let cs ← canonPairs ps
      .ok ((k, c) :: cs)

end

/-! ### mbs.py - machine balance sheet -/

namespace Mbs

structure Asset where
  asset_type : String
  amount : Int
deriving DecidableEq

structure Liability where
  liability_type : String
  amount : Int
deriving DecidableEq

structure MBS where
  mbs_version : String
  agent_id : String
  assets : List Asset
  liabilities : List Liability
  burn_rate_usd_micros_per_s : Int
  solvency_ratio : Int
  timestamp_ms : Int
  signature_ed25519 : String
deriving DecidableEq

def MAX_SOLVENCY : Int := 999999

/-- Embedding of compute_solvency_ratio.  Python floor division is Int.fdiv. -/
def compute_solvency_ratio (assets : List Asset) (liabilities : List Liability) : Int :=
  let total_assets := (assets.map Asset.amount).sum
  let total_liabilities := (liabilities.map Liability.amount).sum
  if total_liabilities = 0 then MAX_SOLVENCY
  else (total_assets * 10000).fdiv total_liabilities

def Asset.to_dict (a : Asset) : Json :=
  .obj [("asset_type", .str a.asset_type), ("amount", .int a.amount)]

def Liability.to_dict (l : Liability) : Json :=
  .obj [("liability_type", .str l.liability_type), ("amount", .int l.amount)]

/-- MBS.to_dict without the signature key, as used by verify_mbs after del. -/
def MBS.content_dict (mbs : MBS) : Json :=
  .obj [("mbs_version", .str mbs.mbs_version),
    ("agent_id", .str mbs.agent_id),
    ("assets", .arr (mbs.assets.map Asset.to_dict)),
    ("liabilities", .arr (mbs.liabilities.map Liability.to_dict)),
    ("burn_rate_usd_micros_per_s", .int mbs.burn_rate_usd_micros_per_s),
    ("solvency_ratio", .int mbs.solvency_ratio),
    ("timestamp_ms", .int mbs.timestamp_ms)]

/-- Embedding of verify_mbs.  The blake3 digest and the ed25519 check are
modelled as the parameters hashS and verif; Python's first-failure loops over
assets and liabilities return a fixed message, embedded with List.any. -/
def verify_mbs (hashS : String → String) (verif : String → String → String → Bool)
    (mbs : MBS) (public_key : String) : Except String (Bool × Option String) :=
  if mbs.mbs_version ≠ "0.1" then .ok (false, some "Invalid mbs_version")
  else if mbs.assets.any (fun a => a.amount < 0) then
    .ok (false, some "Asset amount cannot be negative")
  else if mbs.liabilities.any (fun l => l.amount < 0) then
    .ok (false, some "Liability amount cannot be negative")
  else if mbs.burn_rate_usd_micros_per_s < 0 then .ok (false, some "Burn rate cannot be negative")
  else if mbs.solvency_ratio ≠ compute_solvency_ratio mbs.assets mbs.liabilities then
    .ok (false, some "Invalid solvency ratio")
  else do
    let canonical ← canonicalize mbs.content_dict
    let mbs_hash := hashS canonical
    if ¬ verif mbs_hash mbs.signature_ed25519 public_key then .ok (false, some "Invalid signature")
    else .ok (true, none)

end Mbs

/-! ### dbp.py - default/bankruptcy primitive -/

namespace Dbp

structure Creditor where
  agent_id : String
  amount_micros : Int
  priority : Int
  collateralized : Bool
deriving DecidableEq

structure Asset where
  asset_type : String
  value_micros : Int
  liquid : Bool
deriving DecidableEq

structure Distribution where
  creditor_id : String
  receives_micros : Int
  recovery_bps : Int
deriving DecidableEq

structure Trigger where
  type : String
  reference_id : String
  trigger_timestamp_ms : Int
deriving DecidableEq

structure ObligationsSnapshot where
  total_owed_micros : Int
  creditors : List Creditor
deriving DecidableEq

structure AssetsSnapshot where
  total_value_micros : Int
  assets : List Asset
deriving DecidableEq

structure LiquidationPlan where
  method : String
  distributions : List Distribution
deriving DecidableEq

structure DBP where
  dbp_version : String
  default_id : String
  defaulting_agent_id : String
  declaration_type : String
  trigger : Trigger
  obligations_snapshot : ObligationsSnapshot
  assets_snapshot : AssetsSnapshot
  recovery_rate_bps : Int
  liquidation_plan : LiquidationPlan
  timestamp_ms : Int
  arbiter_agent_id : String
  dbp_hash : String
  signature_ed25519 : String
deriving DecidableEq

/-- Priority order used by sorted(creditors, key=lambda x: x.priority). -/
def creditorPrioLe (a b : Creditor) : Prop := a.priority ≤ b.priority

instance : DecidableRel creditorPrioLe := fun a b => Int.decLe a.priority b.priority

instance : IsTotal Creditor creditorPrioLe := ⟨fun a b => le_total a.priority b.priority⟩

instance : IsTrans Creditor creditorPrioLe := ⟨fun _ _ _ h1 h2 => le_trans h1 h2⟩

/-- Agent-id order used by sorted(creditors, key=lambda x: x.agent_id). -/
def creditorIdLe (a b : Creditor) : Prop := sleProp a.agent_id b.agent_id

instance : DecidableRel creditorIdLe := fun a b =>
  (inferInstance : Decidable (sleProp a.agent_id b.agent_id))

def assetTypeLe (a b : Asset) : Prop := sleProp a.asset_type b.asset_type

instance : DecidableRel assetTypeLe := fun a b =>
  (inferInstance : Decidable (sleProp a.asset_type b.asset_type))

def distIdLe (a b : Distribution) : Prop := sleProp a.creditor_id b.creditor_id

instance : DecidableRel distIdLe := fun a b =>
  (inferInstance : Decidable (sleProp a.creditor_id b.creditor_id))

/-- The PRO_RATA distribution list: receives = int((amount / total_owed) *
total_assets), recovery = int((receives / amount) * 10000) when amount > 0,
both computed with Python float arithmetic. -/
def proRata (creditors : List Creditor) (total_owed total_assets : Int) : List Distribution :=
  creditors.map fun c =>
    let receives := pyIntDivMul c.amount_micros total_owed total_assets
    let recovery : Int :=
      if c.amount_micros > 0 then pyIntDivMul receives c.amount_micros 10000 else 0
    { creditor_id := c.agent_id, receives_micros := receives, recovery_bps := recovery }

/-- The PRIORITY walk: each creditor receives min(amount, remaining) and
remaining is decremented. -/
def priorityWalk : List Creditor → Int → List Distribution
  | [], _ => []
  | c :: rest, remaining =>
      let receives := min c.amount_micros remaining
      let recovery : Int :=
        if c.amount_micros > 0 then pyIntDivMul receives c.amount_micros 10000 else 0
      { creditor_id := c.agent_id, receives_micros := receives, recovery_bps := recovery }
        :: priorityWalk rest (remaining - receives)

/-- Embedding of compute_distributions.  The final fallback branch of the
source (AUCTION) calls itself with PRO_RATA and thus returns the PRO_RATA
result, inlined here as proRata to keep the recursion structural. -/
def compute_distributions (creditors : List Creditor) (total_assets : Int)
    (method : String) : List Distribution :=
  if creditors = [] then []
  else
    let total_owed := (creditors.map Creditor.amount_micros).sum
    if total_owed = 0 then
      creditors.map fun c => { creditor_id := c.agent_id, receives_micros := 0, recovery_bps := 0 }
    else if method = "PRO_RATA" then proRata creditors total_owed total_assets
    else if method = "PRIORITY" then
      priorityWalk (List.insertionSort creditorPrioLe creditors) total_assets
    else proRata creditors total_owed total_assets

/-- The aggregate recovery rate of make_dbp and resolve_default:
int((total_distributed / total_owed) * 10000) if total_owed > 0 else 0. -/
def recoveryRate (total_distributed total_owed : Int) : Int :=
  if total_owed > 0 then pyIntDivMul total_distributed total_owed 10000 else 0

def Creditor.to_dict (c : Creditor) : Json :=
  .obj [("agent_id", .str c.agent_id), ("amount_micros", .int c.amount_micros),
    ("priority", .int c.priority), ("collateralized", .bool c.collateralized)]

def Asset.to_dict (a : Asset) : Json :=
  .obj [("asset_type", .str a.asset_type), ("value_micros", .int a.value_micros),
    ("liquid", .bool a.liquid)]

def Distribution.to_dict (d : Distribution) : Json :=
  .obj [("creditor_id", .str d.creditor_id), ("receives_micros", .int d.receives_micros),
    ("recovery_bps", .int d.recovery_bps)]

/-- Embedding of get_dbp_content: DBP.to_dict with default_id, dbp_hash and
signature_ed25519 removed; creditors, assets and distributions are sorted by
their id fields exactly as in to_dict. -/
def get_dbp_content (dbp : DBP) : Json :=
  .obj [("dbp_version", .str dbp.dbp_version),
    ("defaulting_agent_id", .str dbp.defaulting_agent_id),
    ("declaration_type", .str dbp.declaration_type),
    ("trigger", .obj [("type", .str dbp.trigger.type),
      ("reference_id", .str dbp.trigger.reference_id),
      ("trigger_timestamp_ms", .int dbp.trigger.trigger_timestamp_ms)]),
    ("obligations_snapshot", .obj [
      ("total_owed_micros", .int dbp.obligations_snapshot.total_owed_micros),
      ("creditors", .arr ((List.insertionSort creditorIdLe
        dbp.obligations_snapshot.creditors).map Creditor.to_dict))]),
    ("assets_snapshot", .obj [
      ("total_value_micros", .int dbp.assets_snapshot.total_value_micros),
      ("assets", .arr ((List.insertionSort assetTypeLe
        dbp.assets_snapshot.assets).map Asset.to_dict))]),
    ("recovery_rate_bps", .int dbp.recovery_rate_bps),
    ("liquidation_plan", .obj [
      ("method", .str dbp.liquidation_plan.method),
      ("distributions", .arr ((List.insertionSort distIdLe
        dbp.liquidation_plan.distributions).map Distribution.to_dict))]),
    ("timestamp_ms", .int dbp.timestamp_ms),
    ("arbiter_agent_id", .str dbp.arbiter_agent_id)]

structure ResolveResult where
  valid : Bool
  distributions : List Distribution
  recovery_rate_bps : Int
  error : Option String
deriving DecidableEq

/-- Embedding of resolve_default: verify the arbiter signature over the hash
of the canonicalized content, check the distributed total against the
snapshot's total_value_micros field, recompute the recovery rate with float
arithmetic, and return the embedded plan when everything matches. -/
def resolve_default (hashS : String → String) (verif : String → String → String → Bool)
    (dbp : DBP) (arbiter_public_key : String) : Except String ResolveResult := do
  let canonical ← canonicalize (get_dbp_content dbp)
  let computed_hash := hashS canonical
  let is_valid := verif computed_hash dbp.signature_ed25519 arbiter_public_key
  if ¬ is_valid then
    return ⟨false, [], 0, some "Invalid arbiter signature"⟩
  let total_owed := dbp.obligations_snapshot.total_owed_micros
  let total_distributed := (dbp.liquidation_plan.distributions.map
    Distribution.receives_micros).sum
  let total_assets := dbp.assets_snapshot.total_value_micros
  if total_distributed > total_assets then
    return ⟨false, [], 0, some "Distributions exceed available assets"⟩
  let expected_recovery := recoveryRate total_distributed total_owed
  if dbp.recovery_rate_bps ≠ expected_recovery then
    return ⟨false, [], 0,
      some ("Recovery rate mismatch: expected " ++ intStr expected_recovery
        ++ ", got " ++ intStr dbp.recovery_rate_bps)⟩
  return ⟨true, dbp.liquidation_plan.distributions, dbp.recovery_rate_bps, none⟩

end Dbp

/-! ### amr.py - attested metering records

Only the fields that aggregate_amrs reads are embedded; the remaining AMR
fields (ids, windows, context, signatures) do not influence any claim about
aggregate_amrs. -/

namespace Amr

structure Metering where
  quantity : Int
deriving DecidableEq

structure Attestation where
  confidence_bps : Int
deriving DecidableEq

structure Pricing where
  total_micros : Int
deriving DecidableEq

structure AMR where
  resource_class : String
  metering : Metering
  attestation : Attestation
  pricing : Pricing
deriving DecidableEq

/-- One step of the by_resource_class accumulation: insert a zero row when
the class is new, then add the record's quantity and micros to it. -/
def rcStep (d : List (String × (Int × Int))) (amr : AMR) : List (String × (Int × Int)) :=
  let d0 := if d.any (fun p => p.1 = amr.resource_class) then d
    else d ++ [(amr.resource_class, (0, 0))]
  d0.map fun p =>
    if p.1 = amr.resource_class then
      (p.1, (p.2.1 + amr.metering.quantity, p.2.2 + amr.pricing.total_micros))
    else p

structure AmrAggregate where
  total_quantity : Int
  total_micros : Int
  by_resource_class : List (String × (Int × Int))
  avg_confidence_bps : Int
deriving DecidableEq

/-- Embedding of aggregate_amrs.  The source accumulates the three totals and
the per-class map in one loop; integer addition is associative and
commutative, so the running totals are the list sums, and the map is the
fold of rcStep over the records in order. -/
def aggregate_amrs (amrs : List AMR) : AmrAggregate :=
  { total_quantity := (amrs.map fun (a : AMR) => a.metering.quantity).sum,
    total_micros := (amrs.map fun (a : AMR) => a.pricing.total_micros).sum,
    by_resource_class := amrs.foldl rcStep [],
    avg_confidence_bps :=
      if amrs = [] then 0
      else ((amrs.map fun (a : AMR) => a.attestation.confidence_bps).sum).fdiv amrs.length }

end Amr

/-! ### msr.py / netting.py - settlement receipts and inter-agent netting

get_msr_hash (blake3 over the canonical receipt) is modelled as a function
parameter hashFn; every netting theorem below quantifies over it. -/

structure MSR where
  msr_version : String
  payer_agent_id : String
  payee_agent_id : String
  resource_type : String
  units : Int
  unit_type : String
  price_usd_micros : Int
  timestamp_ms : Int
  nonce : String
  scope_hash : String
  request_hash : String
  response_hash : String
  prev_receipt_hash : Option String
  signature_ed25519 : String
deriving DecidableEq

structure NetObligation where
  from_agent : String
  to_agent : String
  amount_usd_micros : Int
deriving DecidableEq

structure NettingResult where
  obligations : List NetObligation
  participants : List String
  receipt_hashes : List String
  total_volume : Int
deriving DecidableEq

/-- The balance-matrix key of the source: the f-string payer|payee. -/
def pairKey (a b : String) : String := a ++ "|" ++ b

def msrKey (r : MSR) : String := pairKey r.payer_agent_id r.payee_agent_id

/-- Split a character list at every pipe, keeping empty parts, exactly like
str.split with a one-character separator. -/
def splitPipe : List Char → List (List Char)
  | [] => [[]]
  | c :: rest =>
      if c = '|' then [] :: splitPipe rest
      else
        match splitPipe rest with
        | [] => [[c]]
        | p :: ps => (c :: p) :: ps

/-- Embedding of key.split of the pipe separator. -/
def splitKey (k : String) : List String := (splitPipe k.data).map String.mk

/-- An agent id that does not contain the pipe separator.  The specification
restricts agent ids to lowercase hex strings, which are all pipe-free. -/
def pipeFree (s : String) : Prop := '|' ∉ s.data

instance : DecidablePred pipeFree := fun s => inferInstanceAs (Decidable ('|' ∉ s.data))

/-- The canonical unordered-pair key: join of sorted([a, b]). -/
def canonPairKey (a b : String) : String := if sleProp a b then pairKey a b else pairKey b a

/-- One iteration of the balance-matrix loop: balances[key] = balances.get(key, 0) + price. -/
def balStep (d : List (String × Int)) (r : MSR) : List (String × Int) :=
  dset d (msrKey r) (dget d (msrKey r) 0 + r.price_usd_micros)

def buildBalances (rs : List MSR) : List (String × Int) := rs.foldl balStep []

/-- Embedding of the bilateral netting loop (step 4 of net_receipts): visit
the balance keys in sorted order, skip pairs already processed, and emit the
signed difference of the two directed gross flows.  The tuple unpacking
a, b = key.split raises ValueError when the key does not split in two. -/
def pairLoop (bal : List (String × Int)) :
    List String → List String → List (String × Int) → Except String (List (String × Int))
  | [], _, net => .ok net
  | key :: rest, processed, net =>
      match splitKey key with
      | [a, b] =>
          let pk := canonPairKey a b
          if pk ∈ processed then pairLoop bal rest processed net
          else
            let a_to_b := dget bal (pairKey a b) 0
            let b_to_a := dget bal (pairKey b a) 0
            let net' :=
              if a_to_b > b_to_a then dset net (pairKey a b) (a_to_b - b_to_a)
              else if b_to_a > a_to_b then dset net (pairKey b a) (b_to_a - a_to_b)
              else net
            pairLoop bal rest (pk :: processed) net'
      | _ => .error "ValueError: unpack"

/-- Build one NetObligation from a net-balance key (step 5 of net_receipts). -/
def mkObl (net : List (String × Int)) (key : String) : Except String NetObligation :=
  match splitKey key with
  | [f, t] => .ok ⟨f, t, dget net key 0⟩
  | _ => .error "ValueError: unpack"

def oblLoop (net : List (String × Int)) : List String → Except String (List NetObligation)
  | [] => .ok []
  | k :: ks => do
      let o ← mkObl net k
      let os ← oblLoop net ks
      .ok (o :: os)

def obligationsOf (net : List (String × Int)) : Except String (List NetObligation) :=
  oblLoop net (sortStr (net.map Prod.fst))

/-- Receipt order used by sorted(receipts, key=get_msr_hash). -/
def hashLe (hashFn : MSR → String) (r s : MSR) : Prop := sleProp (hashFn r) (hashFn s)

instance (hashFn : MSR → String) : DecidableRel (hashLe hashFn) := fun r s =>
  (inferInstance : Decidable (sleProp (hashFn r) (hashFn s)))

/-- Embedding of net_receipts. -/
def net_receipts (hashFn : MSR → String) (receipts : List MSR) :
    Except String NettingResult := do
  let receipt_hashes := sortStr (receipts.map hashFn)
  let sorted_receipts := List.insertionSort (hashLe hashFn) receipts
  let balances := buildBalances sorted_receipts
  let total_volume := (sorted_receipts.map MSR.price_usd_micros).sum
  let participants_list :=
    sortStr ((sorted_receipts.bind fun r => [r.payer_agent_id, r.payee_agent_id]).dedup)
  let net ← pairLoop balances (sortStr (balances.map Prod.fst)) [] []
  let obligations ← obligationsOf net
  return ⟨obligations, participants_list, receipt_hashes, total_volume⟩

/-- The per-obligation checks of verify_ian (membership of both endpoints,
no self-obligation, positive amount), returning the first failure. -/
def check_obligations (participants : List String) : List NetObligation → Option String
  | [] => none
  | o :: rest =>
      if o.from_agent ∉ participants then some ("Unknown participant: " ++ o.from_agent)
      else if o.to_agent ∉ participants then some ("Unknown participant: " ++ o.to_agent)
      else if o.from_agent = o.to_agent then some "Self-obligation not allowed"
      else if o.amount_usd_micros ≤ 0 then some "Obligation amount must be positive"
      else check_obligations participants rest

/-- The gross directed flow of a receipt list on one key (specification view
of the balance matrix). -/
def grossK (rs : List MSR) (k : String) : Int :=
  ((rs.filter fun r => msrKey r = k).map MSR.price_usd_micros).sum

/-- The gross directed flow from a to b: sum of the prices of the receipts
with payer a and payee b. -/
def gross (rs : List MSR) (a b : String) : Int :=
  ((rs.filter fun r => r.payer_agent_id = a ∧ r.payee_agent_id = b).map
    MSR.price_usd_micros).sum

/-! ### Generic list helpers -/

theorem getD_eq_get {α : Type} : ∀ (l : List α) (i : Nat) (h : i < l.length) (d : α),
    l.getD i d = l.get ⟨i, h⟩
  | _ :: _, 0, _, _ => rfl
  | _ :: xs, i + 1, h, d => by
      simpa [List.getD_cons_succ] using getD_eq_get xs i (Nat.lt_of_succ_lt_succ h) d

theorem getD_mem {α : Type} (l : List α) (i : Nat) (h : i < l.length) (d : α) :
    l.getD i d ∈ l := by
  rw [getD_eq_get l i h d]
  exact List.get_mem l i h

/-! ### dbp.py claims C4 and C5 -/

namespace Dbp

theorem priorityWalk_length (l : List Creditor) (rem : Int) :
    (priorityWalk l rem).length = l.length := by
  induction l generalizing rem with
  | nil => rfl
  | cons c rest ih => simp [priorityWalk, ih]

theorem priorityWalk_zero {l : List Creditor} (hl : ∀ c ∈ l, 0 ≤ c.amount_micros) :
    ∀ o ∈ priorityWalk l 0, o.receives_micros = 0 := by
  induction l with
  | nil => intro o ho; simp [priorityWalk] at ho
  | cons c rest ih =>
    intro o ho
    have ha : 0 ≤ c.amount_micros := hl c (List.mem_cons_self _ _)
    have hmin : min c.amount_micros 0 = 0 := min_eq_right ha
    simp only [priorityWalk, hmin, List.mem_cons, sub_self] at ho
    rcases ho with ho | ho
    · rw [ho]
    · exact ih (fun d hd => hl d (List.mem_cons_of_mem _ hd)) o ho

theorem priorityWalk_paid {l : List Creditor} {rem : Int}
    (hl : ∀ c ∈ l, 0 ≤ c.amount_micros) (hrem : 0 ≤ rem) :
    ∀ i j, i < j → j < l.length →
      0 < ((priorityWalk l rem).getD j ⟨"", 0, 0⟩).receives_micros →
      ((priorityWalk l rem).getD i ⟨"", 0, 0⟩).receives_micros
        = (l.getD i ⟨"", 0, 0, false⟩).amount_micros := by
  induction l generalizing rem with
  | nil => intro i j _ hj; simp at hj
  | cons c rest ih =>
    intro i j hij hj hpos
    have ha : 0 ≤ c.amount_micros := hl c (List.mem_cons_self _ _)
    have hrest : ∀ d ∈ rest, 0 ≤ d.amount_micros :=
      fun d hd => hl d (List.mem_cons_of_mem _ hd)
    obtain ⟨j', rfl⟩ : ∃ j', j = j' + 1 := ⟨j - 1, by omega⟩
    have hj' : j' < rest.length := by simpa using Nat.lt_of_succ_lt_succ hj
    cases i with
    | zero =>
      simp only [priorityWalk, List.getD_cons_succ, List.getD_cons_zero] at hpos ⊢
      by_cases hle : c.amount_micros ≤ rem
      · rw [min_eq_left hle]
      · exfalso
        have hminr : min c.amount_micros rem = rem := min_eq_right (le_of_not_le hle)
        rw [hminr, sub_self] at hpos
        have hz := priorityWalk_zero hrest
          ((priorityWalk rest 0).getD j' ⟨"", 0, 0⟩)
          (getD_mem _ j' (by rw [priorityWalk_length]; exact hj') _)
        omega
    | succ i' =>
      have hij' : i' < j' := Nat.lt_of_succ_lt_succ hij
      have hrem' : 0 ≤ rem - min c.amount_micros rem := by
        have := min_le_right c.amount_micros rem
        omega
      simp only [priorityWalk, List.getD_cons_succ] at hpos ⊢
      exact ih hrest hrem' i' j' hij' hj' hpos

end Dbp

/-- Claim C4: the specification states the PRO_RATA distribution as the exact
integer floor receives = (amount * T) / total_owed, but compute_distributions
evaluates int((amount / total_owed) * total_assets) with binary64 floats.  For
creditors owed 3 and 8 micros and assets 110, the float path pays the first
creditor 29 micros where the exact floor formula of the spec yields
330 / 11 = 30.  The spec's own example (owed 400 and 600, assets 500) is
reproduced exactly, because there the float results happen to be exact. -/
theorem claim_C4_pro_rata_float_divergence :
    Dbp.compute_distributions [⟨"X", 3, 1, false⟩, ⟨"Y", 8, 2, false⟩] 110 "PRO_RATA"
      = [⟨"X", 29, 96666⟩, ⟨"Y", 80, 100000⟩]
    ∧ (3 * 110 : Int).fdiv 11 = 30
    ∧ (29 : Int) ≠ (3 * 110 : Int).fdiv 11
    ∧ Dbp.compute_distributions [⟨"X", 400, 1, false⟩, ⟨"Y", 600, 2, false⟩] 500 "PRO_RATA"
      = [⟨"X", 200, 5000⟩, ⟨"Y", 300, 5000⟩]
    ∧ Dbp.recoveryRate 500 1000 = 5000 :=
  ⟨rfl, rfl, by decide, rfl, rfl⟩

/-- Claim C5: compute_distributions with PRIORITY walks the creditors sorted
by ascending priority, paying each min(amount, remaining); consequently, for
creditor amounts and assets in the spec's non-negative monetary domain, a
creditor receives a positive payout only when every creditor of strictly
smaller priority number has been paid its full amount.  The spec's example
(X owed 400 at priority 1, Y owed 600 at priority 2, assets 500) pays X 400
at 10000 bps and Y 100 at 1666 bps, with aggregate recovery 5000 bps. -/
theorem claim_C5_priority_full_payment :
    (∀ (creditors : List Dbp.Creditor) (T : Int),
      (∀ c ∈ creditors, 0 ≤ c.amount_micros) → 0 ≤ T →
      ∀ i j : Nat, ∀ hi : i < (List.insertionSort Dbp.creditorPrioLe creditors).length,
        ∀ hj : j < (List.insertionSort Dbp.creditorPrioLe creditors).length,
        ((List.insertionSort Dbp.creditorPrioLe creditors).getD i ⟨"", 0, 0, false⟩).priority
          < ((List.insertionSort Dbp.creditorPrioLe creditors).getD j
              ⟨"", 0, 0, false⟩).priority →
        0 < ((Dbp.compute_distributions creditors T "PRIORITY").getD j
          ⟨"", 0, 0⟩).receives_micros →
        ((Dbp.compute_distributions creditors T "PRIORITY").getD i ⟨"", 0, 0⟩).receives_micros
          = ((List.insertionSort Dbp.creditorPrioLe creditors).getD i
              ⟨"", 0, 0, false⟩).amount_micros)
    ∧ Dbp.compute_distributions [⟨"X", 400, 1, false⟩, ⟨"Y", 600, 2, false⟩] 500 "PRIORITY"
      = [⟨"X", 400, 10000⟩, ⟨"Y", 100, 1666⟩]
    ∧ Dbp.recoveryRate 500 1000 = 5000 := by
  refine ⟨?_, rfl, rfl⟩
  intro creditors T hc hT i j hi hj hprio hpos
  by_cases hemp : creditors = []
  · subst hemp
    simp [List.insertionSort] at hi
  have hperm := List.perm_insertionSort Dbp.creditorPrioLe creditors
  have hlen : (List.insertionSort Dbp.creditorPrioLe creditors).length = creditors.length :=
    hperm.length_eq
  by_cases howed : (creditors.map Dbp.Creditor.amount_micros).sum = 0
  · exfalso
    have hds : Dbp.compute_distributions creditors T "PRIORITY"
        = creditors.map fun c => ⟨c.agent_id, 0, 0⟩ := by
      simp only [Dbp.compute_distributions, if_neg hemp, if_pos howed]
    rw [hds] at hpos
    have hjlen : j < (creditors.map fun c : Dbp.Creditor =>
        (⟨c.agent_id, 0, 0⟩ : Dbp.Distribution)).length := by
      rw [List.length_map]; omega
    have hmem := getD_mem _ j hjlen (⟨"", 0, 0⟩ : Dbp.Distribution)
    rw [List.mem_map] at hmem
    obtain ⟨c, _, hco⟩ := hmem
    rw [← hco] at hpos
    simp at hpos
  · have hds : Dbp.compute_distributions creditors T "PRIORITY"
        = Dbp.priorityWalk (List.insertionSort Dbp.creditorPrioLe creditors) T := by
      simp [Dbp.compute_distributions, if_neg hemp, if_neg howed]
    have hij : i < j := by
      rcases Nat.lt_trichotomy i j with h | h | h
      · exact h
      · exfalso; rw [h] at hprio; exact lt_irrefl _ hprio
      · exfalso
        have hsorted := List.sorted_insertionSort Dbp.creditorPrioLe creditors
        have hrel := List.pairwise_iff_get.mp hsorted ⟨j, hj⟩ ⟨i, hi⟩ h
        rw [getD_eq_get _ i hi, getD_eq_get _ j hj] at hprio
        exact absurd hprio (not_lt.mpr hrel)
    rw [hds] at hpos ⊢
    exact Dbp.priorityWalk_paid
      (fun c hcmem => hc c (hperm.mem_iff.mp hcmem)) hT i j hij hj hpos

/-- Witness for claim C5 at the spec's example: with creditors X (400,
priority 1) and Y (600, priority 2) and assets 500, Y receives a positive
amount, so X is paid its full 400. -/
theorem claim_C5_witness :
    ((Dbp.compute_distributions [⟨"X", 400, 1, false⟩, ⟨"Y", 600, 2, false⟩] 500
      "PRIORITY").getD 0 ⟨"", 0, 0⟩).receives_micros
      = ((List.insertionSort Dbp.creditorPrioLe
          [⟨"X", 400, 1, false⟩, ⟨"Y", 600, 2, false⟩]).getD 0
          ⟨"", 0, 0, false⟩).amount_micros :=
  claim_C5_priority_full_payment.1 [⟨"X", 400, 1, false⟩, ⟨"Y", 600, 2, false⟩] 500
    (by decide) (by decide) 0 1 (by decide) (by decide) (by decide) (by decide)

/-! ### Python floor division is the rational floor -/

theorem fdiv_eq_rat_floor (a : Int) {b : Int} (hb : 0 < b) :
    a.fdiv b = ⌊(a : ℚ) / (b : ℚ)⌋ := by
  obtain ⟨n, rfl⟩ : ∃ n : Nat, b = (n : Int) := ⟨b.toNat, (Int.toNat_of_nonneg hb.le).symm⟩
  rw [Int.fdiv_eq_ediv a hb.le, ← Rat.floor_intCast_div_natCast a n]
  norm_cast

/-- Claim C7: compute_solvency_ratio returns the sentinel 999999 when the
liability total is zero and the integer floor of assets*10000/liabilities
otherwise (1_000_000 assets against 250_000 liabilities give 40000 bps), and
verify_mbs returns valid=false for every MBS whose embedded solvency_ratio
differs from the recomputed one, whatever the hash and signature functions. -/
theorem claim_C7_solvency_ratio :
    (∀ (assets : List Mbs.Asset) (liabilities : List Mbs.Liability),
      ((liabilities.map Mbs.Liability.amount).sum = 0 →
        Mbs.compute_solvency_ratio assets liabilities = 999999)
      ∧ (0 < (liabilities.map Mbs.Liability.amount).sum →
        Mbs.compute_solvency_ratio assets liabilities
          = ⌊(((assets.map Mbs.Asset.amount).sum * 10000 : Int) : ℚ)
              / (((liabilities.map Mbs.Liability.amount).sum : Int) : ℚ)⌋))
    ∧ (∀ (hashS : String → String) (verif : String → String → String → Bool)
        (mbs : Mbs.MBS) (pub : String),
        mbs.solvency_ratio ≠ Mbs.compute_solvency_ratio mbs.assets mbs.liabilities →
        ∃ err, Mbs.verify_mbs hashS verif mbs pub = .ok (false, some err))
    ∧ Mbs.compute_solvency_ratio [⟨"usdc", 1000000⟩] [⟨"owed", 250000⟩] = 40000 := by
  refine ⟨fun assets liabilities => ⟨fun hL => ?_, fun hL => ?_⟩, ?_, rfl⟩
  · simp only [Mbs.compute_solvency_ratio, hL, if_pos rfl]
    rfl
  · simp only [Mbs.compute_solvency_ratio, if_neg (by omega : ¬ (liabilities.map
      Mbs.Liability.amount).sum = 0)]
    exact fdiv_eq_rat_floor _ hL
  · intro hashS verif mbs pub hne
    simp only [Mbs.verify_mbs]
    by_cases h1 : mbs.mbs_version ≠ "0.1"
    · exact ⟨"Invalid mbs_version", by rw [if_pos h1]⟩
    · rw [if_neg h1]
      by_cases h2 : mbs.assets.any fun a => a.amount < 0
      · exact ⟨"Asset amount cannot be negative", by rw [if_pos h2]⟩
      · rw [if_neg h2]
        by_cases h3 : mbs.liabilities.any fun l => l.amount < 0
        · exact ⟨"Liability amount cannot be negative", by rw [if_pos h3]⟩
        · rw [if_neg h3]
          by_cases h4 : mbs.burn_rate_usd_micros_per_s < 0
          · exact ⟨"Burn rate cannot be negative", by rw [if_pos h4]⟩
          · rw [if_neg h4]
            exact ⟨"Invalid solvency ratio", by rw [if_pos hne]⟩

/-- Witness for claim C7: an MBS whose embedded ratio 123 disagrees with the
recomputed ratio of its (empty) balance sheet is rejected. -/
theorem claim_C7_witness :
    Mbs.compute_solvency_ratio [⟨"usdc", 1000000⟩] [⟨"owed", 250000⟩] = 40000
    ∧ ∃ err, Mbs.verify_mbs (fun _ => "") (fun _ _ _ => true)
        ⟨"0.1", "a", [], [], 0, 123, 0, "sig"⟩ "pk" = .ok (false, some err) :=
  ⟨claim_C7_solvency_ratio.2.2,
    claim_C7_solvency_ratio.2.1 (fun _ => "") (fun _ _ _ => true)
      ⟨"0.1", "a", [], [], 0, 123, 0, "sig"⟩ "pk" (by decide)⟩

/-- Claim C10: aggregate_amrs is total on every list; on the empty list it
returns zero totals, an empty per-class map and zero average confidence
(instead of dividing by zero), and on a non-empty list the average confidence
is the floor of the arithmetic mean of the records' confidence_bps. -/
theorem claim_C10_aggregate_amrs :
    Amr.aggregate_amrs [] = ⟨0, 0, [], 0⟩
    ∧ (∀ amrs : List Amr.AMR, amrs ≠ [] →
        (Amr.aggregate_amrs amrs).avg_confidence_bps
          = ⌊(((amrs.map fun a : Amr.AMR => a.attestation.confidence_bps).sum : Int) : ℚ)
              / ((amrs.length : Int) : ℚ)⌋) := by
  refine ⟨rfl, fun amrs hne => ?_⟩
  have hlen : 0 < (amrs.length : Int) := by
    have := List.length_pos.mpr hne
    omega
  simp only [Amr.aggregate_amrs, if_neg hne]
  exact fdiv_eq_rat_floor _ hlen

/-- Witness for claim C10 at a two-record list with confidences 9999 and
9500: the average is the floor of their mean. -/
theorem claim_C10_witness :
    (Amr.aggregate_amrs [⟨"COMPUTE", ⟨5⟩, ⟨9999⟩, ⟨10⟩⟩, ⟨"ENERGY", ⟨2⟩, ⟨9500⟩, ⟨7⟩⟩]
      ).avg_confidence_bps
      = ⌊((([⟨"COMPUTE", ⟨5⟩, ⟨9999⟩, ⟨10⟩⟩, ⟨"ENERGY", ⟨2⟩, ⟨9500⟩, ⟨7⟩⟩] :
          List Amr.AMR).map fun a : Amr.AMR => a.attestation.confidence_bps).sum : ℚ)
          / ((([⟨"COMPUTE", ⟨5⟩, ⟨9999⟩, ⟨10⟩⟩, ⟨"ENERGY", ⟨2⟩, ⟨9500⟩, ⟨7⟩⟩] :
          List Amr.AMR).length : Int) : ℚ)⌋ :=
  claim_C10_aggregate_amrs.2 _ (by decide)

/-! ### canonical.py claim C8 -/

theorem natDigits_ofDigits (m : Nat) : Nat.ofDigits 10 (natDigits m) = m := by
  rw [natDigits_eq]
  exact Nat.ofDigits_digits 10 m

theorem natDigits_ne_nil {m : Nat} (hm : m ≠ 0) : natDigits m ≠ [] := by
  rw [natDigits_eq]
  exact Nat.digits_ne_nil_iff_ne_zero.mpr hm

theorem natDigits_getLast_ne_zero {m : Nat} (hm : m ≠ 0) :
    (natDigits m).getLast? ≠ some 0 := by
  rw [natDigits_eq]
  have hne : Nat.digits 10 m ≠ [] := Nat.digits_ne_nil_iff_ne_zero.mpr hm
  rw [List.getLast?_eq_getLast _ hne]
  intro hcon
  exact Nat.getLast_digit_ne_zero 10 hm (Option.some.inj hcon)

/-- Claim C8: canonicalize raises for every float and for every integer
outside the 53-bit-safe range, and never raises on an in-range integer,
returning its decimal rendering intStr; the digit list underlying intStr is
Mathlib's minimal base-10 digit expansion (its value is the number and its
most significant digit is nonzero, so the rendering is the shortest decimal
form), and negative values get exactly a leading minus sign.  The non-domain
host values rejected by the final branch of the source are representable in
the embedding only by floats, which the first conjunct covers. -/
theorem claim_C8_canonicalize_int_float :
    (∀ q : ℚ, canonicalize (.float q) = .error "Floats forbidden in canonical JSON")
    ∧ (∀ n : Int, (n < -(2 ^ 53) + 1 ∨ 2 ^ 53 - 1 < n) →
        canonicalize (.int n) = .error "Number outside safe integer range")
    ∧ (∀ n : Int, -(2 ^ 53) + 1 ≤ n → n ≤ 2 ^ 53 - 1 →
        canonicalize (.int n) = .ok (intStr n))
    ∧ (∀ m : Nat, m ≠ 0 →
        Nat.ofDigits 10 (natDigits m) = m ∧ (natDigits m).getLast? ≠ some 0)
    ∧ (∀ n : Int, n < 0 → intStr n = "-" ++ natStr n.natAbs) := by
  refine ⟨fun _ => rfl, fun n h => ?_, fun n h1 h2 => ?_, fun m hm =>
    ⟨natDigits_ofDigits m, natDigits_getLast_ne_zero hm⟩, fun n hn => ?_⟩
  · simp only [canonicalize, if_pos h]
  · have hcond : ¬ (n < -(2 ^ 53) + 1 ∨ (2 : Int) ^ 53 - 1 < n) := by
      push_neg
      exact ⟨h1, h2⟩
    simp only [canonicalize, if_neg hcond]
  · simp only [intStr, if_pos hn]

/-- Witness for claim C8: 3/2 is rejected, 2^53 is out of range, 7 is
serialized as its decimal form. -/
theorem claim_C8_witness :
    canonicalize (.float (3 / 2)) = .error "Floats forbidden in canonical JSON"
    ∧ canonicalize (.int (2 ^ 53)) = .error "Number outside safe integer range"
    ∧ canonicalize (.int 7) = .ok (intStr 7)
    ∧ Nat.ofDigits 10 (natDigits 10) = 10 :=
  ⟨claim_C8_canonicalize_int_float.1 (3 / 2),
    claim_C8_canonicalize_int_float.2.1 (2 ^ 53) (Or.inr (by decide)),
    claim_C8_canonicalize_int_float.2.2.1 7 (by decide) (by decide),
    (claim_C8_canonicalize_int_float.2.2.2.1 10 (by decide)).1⟩

/-! ### dbp.py claim C6 -/

/-- A DBP whose liquidation plan distributes 100 micros although its asset
list is empty (sum of asset values 0); the stored total_value_micros field
says 1000, and the embedded recovery rate matches the recomputation, so
resolve_default accepts it. -/
def dbpExceedingAssets : Dbp.DBP :=
  ⟨"0.1", "d", "agent", "VOLUNTARY", ⟨"MISSED_FC", "ref", 0⟩, ⟨1000, []⟩, ⟨1000, []⟩,
    1000, ⟨"PRO_RATA", [⟨"X", 100, 1000⟩]⟩, 0, "arb", "h", "sig"⟩

/-- Counterexample to claim C6 as stated: resolve_default compares the
distributed total with the snapshot's total_value_micros field, not with the
sum of the asset entries.  For dbpExceedingAssets the distributions (100)
exceed the sum of the asset values (0, empty list), yet the result is
valid=true, because the stored field says 1000.  The signature check is the
abstract verification parameter, instantiated with a function that accepts -
corresponding to a DBP the arbiter actually signed. -/
theorem claim_C6_counterexample :
    Dbp.resolve_default (fun _ => "h") (fun _ _ _ => true) dbpExceedingAssets "pk"
      = .ok ⟨true, [⟨"X", 100, 1000⟩], 1000, none⟩
    ∧ ((dbpExceedingAssets.assets_snapshot.assets.map Dbp.Asset.value_micros).sum
        < (dbpExceedingAssets.liquidation_plan.distributions.map
            Dbp.Distribution.receives_micros).sum) :=
  ⟨rfl, by decide⟩

/-- Claim C6 as amended: for every DBP whose content canonicalizes, whatever
the hash and signature-verification functions, resolve_default returns
valid=false with reason "Invalid arbiter signature" when verification fails;
with reason "Distributions exceed available assets" when the distributed
total exceeds the snapshot's total_value_micros field (the stored total, not
the recomputed sum of the asset entries); with a "Recovery rate mismatch"
reason when the embedded recovery_rate_bps differs from the recomputation
int((total_distributed / total_owed) * 10000) in binary64 floats (0 when
total_owed is not positive); and otherwise valid=true with the embedded
distributions and recovery rate. -/
theorem claim_C6_resolve_default (hashS : String → String)
    (verif : String → String → String → Bool) (dbp : Dbp.DBP) (pub : String)
    (cstr : String) (hc : canonicalize (Dbp.get_dbp_content dbp) = .ok cstr) :
    (verif (hashS cstr) dbp.signature_ed25519 pub = false →
      Dbp.resolve_default hashS verif dbp pub
        = .ok ⟨false, [], 0, some "Invalid arbiter signature"⟩)
    ∧ (verif (hashS cstr) dbp.signature_ed25519 pub = true →
        dbp.assets_snapshot.total_value_micros
          < (dbp.liquidation_plan.distributions.map Dbp.Distribution.receives_micros).sum →
        Dbp.resolve_default hashS verif dbp pub
          = .ok ⟨false, [], 0, some "Distributions exceed available assets"⟩)
    ∧ (verif (hashS cstr) dbp.signature_ed25519 pub = true →
        (dbp.liquidation_plan.distributions.map Dbp.Distribution.receives_micros).sum
          ≤ dbp.assets_snapshot.total_value_micros →
        dbp.recovery_rate_bps
          ≠ Dbp.recoveryRate
              ((dbp.liquidation_plan.distributions.map Dbp.Distribution.receives_micros).sum)
              dbp.obligations_snapshot.total_owed_micros →
        Dbp.resolve_default hashS verif dbp pub
          = .ok ⟨false, [], 0,
              some ("Recovery rate mismatch: expected "
                ++ intStr (Dbp.recoveryRate
                    ((dbp.liquidation_plan.distributions.map
                      Dbp.Distribution.receives_micros).sum)
                    dbp.obligations_snapshot.total_owed_micros)
                ++ ", got " ++ intStr dbp.recovery_rate_bps)⟩)
    ∧ (verif (hashS cstr) dbp.signature_ed25519 pub = true →
        (dbp.liquidation_plan.distributions.map Dbp.Distribution.receives_micros).sum
          ≤ dbp.assets_snapshot.total_value_micros →
        dbp.recovery_rate_bps
          = Dbp.recoveryRate
              ((dbp.liquidation_plan.distributions.map Dbp.Distribution.receives_micros).sum)
              dbp.obligations_snapshot.total_owed_micros →
        Dbp.resolve_default hashS verif dbp pub
          = .ok ⟨true, dbp.liquidation_plan.distributions, dbp.recovery_rate_bps, none⟩) := by
  refine ⟨fun hsig => ?_, fun hsig hlt => ?_, fun hsig hle hne => ?_, fun hsig hle heq => ?_⟩
  · simp [Dbp.resolve_default, hc, hsig, Bind.bind, Except.bind, pure, Except.pure]
  · simp [Dbp.resolve_default, hc, hsig, Bind.bind, Except.bind, pure, Except.pure, hlt]
  · simp [Dbp.resolve_default, hc, hsig, Bind.bind, Except.bind, pure, Except.pure,
      not_lt.mpr hle, hne]
  · simp [Dbp.resolve_default, hc, hsig, Bind.bind, Except.bind, pure, Except.pure,
      not_lt.mpr hle, heq]

/-- Witness for claim C6: on dbpExceedingAssets with a rejecting verifier the
resolution fails with the signature reason, and with an accepting verifier it
returns the embedded plan. -/
theorem claim_C6_witness :
    Dbp.resolve_default (fun _ => "h") (fun _ _ _ => false) dbpExceedingAssets "pk"
      = .ok ⟨false, [], 0, some "Invalid arbiter signature"⟩
    ∧ Dbp.resolve_default (fun _ => "h") (fun _ _ _ => true) dbpExceedingAssets "pk"
      = .ok ⟨true, [⟨"X", 100, 1000⟩], 1000, none⟩ :=
  ⟨(claim_C6_resolve_default (fun _ => "h") (fun _ _ _ => false) dbpExceedingAssets "pk"
      _ rfl).1 rfl,
    by
      have h := (claim_C6_resolve_default (fun _ => "h") (fun _ _ _ => true)
        dbpExceedingAssets "pk" _ rfl).2.2.2 rfl (by decide) (by decide)
      simpa using h⟩

/-! ### canonical.py claim C1 -/

theorem listCharLeb_refl (a : List Char) : listCharLeb a a = true := by
  induction a with
  | nil => rfl
  | cons x xs ih => simp [listCharLeb, ih]

theorem canonPairs_keys : ∀ {l : List (String × Json)} {cs : List (String × String)},
    canonPairs l = .ok cs → cs.map Prod.fst = l.map Prod.fst := by
  intro l
  induction l with
  | nil => intro cs h; cases h; rfl
  | cons p ps ih =>
    intro cs h
    obtain ⟨k, v⟩ := p
    simp only [canonPairs] at h
    cases hv : canonicalize v with
    | error e => rw [hv] at h; exact absurd h (by simp [Bind.bind, Except.bind])
    | ok c =>
      rw [hv] at h
      cases hp : canonPairs ps with
      | error e => rw [hp] at h; exact absurd h (by simp [Bind.bind, Except.bind])
      | ok cs' =>
        rw [hp] at h
        simp only [Bind.bind, Except.bind, pure, Except.pure, Except.ok.injEq] at h
        subst h
        simp [ih hp]

theorem canonPairs_perm : ∀ {l₁ l₂ : List (String × Json)}, List.Perm l₁ l₂ →
    ∀ {cs₁ : List (String × String)}, canonPairs l₁ = .ok cs₁ →
    ∃ cs₂, canonPairs l₂ = .ok cs₂ ∧ List.Perm cs₁ cs₂ := by
  intro l₁ l₂ hperm
  induction hperm with
  | nil => intro cs₁ h; cases h; exact ⟨[], rfl, List.Perm.refl []⟩
  | cons x p ih =>
    rename_i t₁ t₂
    intro cs₁ h
    obtain ⟨k, v⟩ := x
    simp only [canonPairs] at h ⊢
    cases hv : canonicalize v with
    | error e => rw [hv] at h; exact absurd h (by simp [Bind.bind, Except.bind])
    | ok c =>
      rw [hv] at h
      cases hp : canonPairs t₁ with
      | error e => rw [hp] at h; exact absurd h (by simp [Bind.bind, Except.bind])
      | ok cs' =>
        rw [hp] at h
        simp only [Bind.bind, Except.bind, pure, Except.pure, Except.ok.injEq] at h
        subst h
        obtain ⟨cs₂, hcs₂, hpm⟩ := ih hp
        exact ⟨(k, c) :: cs₂, by simp [Bind.bind, Except.bind, hcs₂, pure, Except.pure],
          hpm.cons _⟩
  | swap x y t =>
    intro cs₁ h
    obtain ⟨kx, vx⟩ := x
    obtain ⟨ky, vy⟩ := y
    simp only [canonPairs] at h ⊢
    cases hy : canonicalize vy with
    | error e => rw [hy] at h; exact absurd h (by simp [Bind.bind, Except.bind])
    | ok cy =>
      rw [hy] at h
      cases hx : canonicalize vx with
      | error e =>
        rw [hx] at h
        exact absurd h (by simp [Bind.bind, Except.bind])
      | ok cx =>
        rw [hx] at h
        cases ht : canonPairs t with
        | error e =>
          rw [ht] at h
          exact absurd h (by simp [Bind.bind, Except.bind])
        | ok cst =>
          rw [ht] at h
          simp only [Bind.bind, Except.bind, pure, Except.pure, Except.ok.injEq] at h
          subst h
          exact ⟨(kx, cx) :: (ky, cy) :: cst,
            by simp [Bind.bind, Except.bind, hy, hx, ht, pure, Except.pure],
            List.Perm.swap _ _ _⟩
  | trans p₁ p₂ ih₁ ih₂ =>
    intro cs₁ h
    obtain ⟨cs₂, hcs₂, hpm₁⟩ := ih₁ h
    obtain ⟨cs₃, hcs₃, hpm₂⟩ := ih₂ hcs₂
    exact ⟨cs₃, hcs₃, hpm₁.trans hpm₂⟩

theorem eq_of_perm_sorted_keys : ∀ {l₁ l₂ : List (String × String)}, List.Perm l₁ l₂ →
    List.Sorted pairLeProp l₁ → List.Sorted pairLeProp l₂ →
    (l₁.map Prod.fst).Nodup → l₁ = l₂ := by
  intro l₁
  induction l₁ with
  | nil => intro l₂ hp _ _ _; exact hp.nil_eq
  | cons a t₁ ih =>
    intro l₂ hp hs₁ hs₂ hnd
    cases l₂ with
    | nil => exact absurd hp.symm.nil_eq (by simp)
    | cons b t₂ =>
      simp only [List.map_cons, List.nodup_cons] at hnd
      have hab : a = b := by
        have hbmem : b ∈ a :: t₁ := hp.mem_iff.mpr (List.mem_cons_self b t₂)
        have hamem : a ∈ b :: t₂ := hp.mem_iff.mp (List.mem_cons_self a t₁)
        have h1 : sleProp a.1 b.1 := by
          rcases List.mem_cons.mp hbmem with h | h
          · rw [h]; exact listCharLeb_refl _
          · exact (List.sorted_cons.mp hs₁).1 b h
        have h2 : sleProp b.1 a.1 := by
          rcases List.mem_cons.mp hamem with h | h
          · rw [h]; exact listCharLeb_refl _
          · exact (List.sorted_cons.mp hs₂).1 a h
        have hkey : a.1 = b.1 := antisymm h1 h2
        rcases List.mem_cons.mp hbmem with h | h
        · exact h.symm
        · exfalso
          exact hnd.1 (hkey ▸ (List.mem_map_of_mem Prod.fst h))
      subst hab
      have htp : List.Perm t₁ t₂ := hp.cons_inv
      have := ih htp (List.sorted_cons.mp hs₁).2 (List.sorted_cons.mp hs₂).2 hnd.2
      rw [this]

/-- Claim C1: on string-keyed maps in the canonical domain, canonicalize is
independent of insertion order (it emits the pairs sorted by code-point key
order with no whitespace), and reproduces the spec's two literal examples,
whichever of the orders the map was built in. -/
theorem claim_C1_map_key_order :
    (∀ (l₁ l₂ : List (String × Json)) (out : String), (l₁.map Prod.fst).Nodup →
      List.Perm l₁ l₂ → canonicalize (.obj l₁) = .ok out → canonicalize (.obj l₂) = .ok out)
    ∧ canonicalize (.obj [("b", .int 1), ("a", .int 2)]) = .ok "\x7b\"a\":2,\"b\":1\x7d"
    ∧ canonicalize (.obj [("a", .int 2), ("b", .int 1)]) = .ok "\x7b\"a\":2,\"b\":1\x7d"
    ∧ canonicalize (.obj [("b", .int 2), ("a", .arr [.int 1, .int 2, .int 3])])
        = .ok "\x7b\"a\":[1,2,3],\"b\":2\x7d" := by
  refine ⟨?_, rfl, rfl, rfl⟩
  intro l₁ l₂ out hnd hperm hc₁
  simp only [canonicalize] at hc₁ ⊢
  cases hcp : canonPairs l₁ with
  | error e => rw [hcp] at hc₁; exact absurd hc₁ (by simp [Bind.bind, Except.bind])
  | ok cs₁ =>
    rw [hcp] at hc₁
    simp only [Bind.bind, Except.bind, pure, Except.pure, Except.ok.injEq] at hc₁
    obtain ⟨cs₂, hcs₂, hpm⟩ := canonPairs_perm hperm hcp
    rw [hcs₂]
    simp only [Bind.bind, Except.bind, pure, Except.pure, Except.ok.injEq]
    have hsorteq : List.insertionSort pairLeProp cs₁ = List.insertionSort pairLeProp cs₂ := by
      apply eq_of_perm_sorted_keys
      · exact (List.perm_insertionSort pairLeProp cs₁).trans
          (hpm.trans (List.perm_insertionSort pairLeProp cs₂).symm)
      · exact List.sorted_insertionSort pairLeProp cs₁
      · exact List.sorted_insertionSort pairLeProp cs₂
      · have h1 : (cs₁.map Prod.fst).Nodup := (canonPairs_keys hcp).symm ▸ hnd
        have h2 := ((List.perm_insertionSort pairLeProp cs₁).map Prod.fst).nodup_iff.mpr h1
        exact h2
    rw [← hsorteq]
    exact hc₁

/-- Witness for claim C1 at the spec's first example: the two insertion
orders of the same two-key map canonicalize to the same string. -/
theorem claim_C1_witness :
    canonicalize (.obj [("a", .int 2), ("b", .int 1)]) = .ok "\x7b\"a\":2,\"b\":1\x7d" :=
  claim_C1_map_key_order.1 [("b", .int 1), ("a", .int 2)] [("a", .int 2), ("b", .int 1)]
    "\x7b\"a\":2,\"b\":1\x7d" (by decide) (List.Perm.swap _ _ _) rfl

/-! ### netting.py - balance matrix lemmas -/

theorem dget_foldl_balStep (rs : List MSR) : ∀ (d : List (String × Int)) (k : String),
    dget (rs.foldl balStep d) k 0 = dget d k 0 + grossK rs k := by
  induction rs with
  | nil => intro d k; simp [grossK]
  | cons r rest ih =>
    intro d k
    rw [List.foldl_cons, ih]
    by_cases hk : msrKey r = k
    · have h1 : dget (balStep d r) k 0 = dget d k 0 + r.price_usd_micros := by
        simp only [balStep, hk]
        exact dget_dset_self d k _ 0
      rw [h1]
      simp only [grossK, List.filter_cons, hk]
      simp [grossK, hk]
      ring
    · have h1 : dget (balStep d r) k 0 = dget d k 0 := by
        simp only [balStep]
        exact dget_dset_ne d hk _ 0
      rw [h1]
      simp only [grossK, List.filter_cons]
      simp [grossK, hk]

theorem mem_keys_foldl_balStep (rs : List MSR) : ∀ (d : List (String × Int)) (k : String),
    k ∈ (rs.foldl balStep d).map Prod.fst
      ↔ k ∈ d.map Prod.fst ∨ ∃ r ∈ rs, msrKey r = k := by
  induction rs with
  | nil => intro d k; simp
  | cons r rest ih =>
    intro d k
    rw [List.foldl_cons, ih]
    simp only [balStep, mem_keys_dset, List.mem_cons]
    constructor
    · rintro ((h | h) | ⟨s, hs, hsk⟩)
      · exact Or.inr ⟨r, Or.inl rfl, h.symm⟩
      · exact Or.inl h
      · exact Or.inr ⟨s, Or.inr hs, hsk⟩
    · rintro (h | ⟨s, (hs | hs), hsk⟩)
      · exact Or.inl (Or.inr h)
      · exact Or.inl (Or.inl (by rw [← hsk, hs]))
      · exact Or.inr ⟨s, hs, hsk⟩

theorem nodup_keys_foldl_balStep (rs : List MSR) : ∀ (d : List (String × Int)),
    (d.map Prod.fst).Nodup → ((rs.foldl balStep d).map Prod.fst).Nodup := by
  induction rs with
  | nil => intro d h; exact h
  | cons r rest ih =>
    intro d h
    rw [List.foldl_cons]
    exact ih _ (nodup_keys_dset d _ _ h)

theorem dget_buildBalances (rs : List MSR) (k : String) :
    dget (buildBalances rs) k 0 = grossK rs k := by
  rw [buildBalances, dget_foldl_balStep]
  simp [dget]

theorem mem_keys_buildBalances (rs : List MSR) (k : String) :
    k ∈ (buildBalances rs).map Prod.fst ↔ ∃ r ∈ rs, msrKey r = k := by
  rw [buildBalances, mem_keys_foldl_balStep]
  simp

theorem nodup_keys_buildBalances (rs : List MSR) :
    ((buildBalances rs).map Prod.fst).Nodup := by
  rw [buildBalances]
  exact nodup_keys_foldl_balStep rs [] (by simp)

/-! ### netting.py - pipe splitting lemmas -/

theorem splitPipe_ne_nil : ∀ l : List Char, splitPipe l ≠ [] := by
  intro l
  cases l with
  | nil => simp [splitPipe]
  | cons c rest =>
    by_cases h : c = '|'
    · simp [splitPipe, h]
    · simp only [splitPipe, if_neg h]
      cases hs : splitPipe rest with
      | nil => simp
      | cons p ps => simp

theorem splitPipe_no_pipe : ∀ {l : List Char}, '|' ∉ l → splitPipe l = [l] := by
  intro l
  induction l with
  | nil => intro _; rfl
  | cons c rest ih =>
    intro h
    simp only [List.mem_cons] at h
    push_neg at h
    have hc : ¬ c = '|' := fun hh => h.1 hh.symm
    rw [splitPipe, if_neg hc, ih h.2]

theorem splitPipe_append {x : List Char} (y : List Char) (hx : '|' ∉ x) :
    splitPipe (x ++ '|' :: y) = x :: splitPipe y := by
  induction x with
  | nil => simp [splitPipe]
  | cons c x' ih =>
    simp only [List.mem_cons] at hx
    push_neg at hx
    have hc : ¬ c = '|' := fun hh => hx.1 hh.symm
    rw [List.cons_append, splitPipe, if_neg hc, ih hx.2]

def joinPipe : List (List Char) → List Char
  | [] => []
  | [x] => x
  | x :: xs => x ++ '|' :: joinPipe xs

theorem joinPipe_cons_cons (c : Char) (p : List Char) (ps : List (List Char)) :
    joinPipe ((c :: p) :: ps) = c :: joinPipe (p :: ps) := by
  cases ps with
  | nil => rfl
  | cons q qs => rfl

theorem joinPipe_splitPipe : ∀ l : List Char, joinPipe (splitPipe l) = l := by
  intro l
  induction l with
  | nil => rfl
  | cons c rest ih =>
    by_cases h : c = '|'
    · subst h
      rw [splitPipe, if_pos rfl]
      cases hs : splitPipe rest with
      | nil => exact absurd hs (splitPipe_ne_nil rest)
      | cons p ps =>
        have : joinPipe ([] :: p :: ps) = '|' :: joinPipe (p :: ps) := rfl
        rw [this, ← hs, ih]
    · rw [splitPipe, if_neg h]
      cases hs : splitPipe rest with
      | nil => exact absurd hs (splitPipe_ne_nil rest)
      | cons p ps =>
        rw [joinPipe_cons_cons, ← hs, ih]

theorem splitPipe_inj {l₁ l₂ : List Char} (h : splitPipe l₁ = splitPipe l₂) : l₁ = l₂ := by
  have := congrArg joinPipe h
  rwa [joinPipe_splitPipe, joinPipe_splitPipe] at this

theorem data_pairKey (a b : String) : (pairKey a b).data = a.data ++ '|' :: b.data := by
  simp [pairKey, String.data_append]

theorem splitKey_pairKey {a b : String} (ha : pipeFree a) (hb : pipeFree b) :
    splitKey (pairKey a b) = [a, b] := by
  rw [splitKey, data_pairKey, splitPipe_append _ ha, splitPipe_no_pipe hb]
  cases a; cases b; rfl

theorem pairKey_inj {a b c d : String} (ha : pipeFree a) (hc : pipeFree c)
    (h : pairKey a b = pairKey c d) : a = c ∧ b = d := by
  have hd := congrArg String.data h
  rw [data_pairKey, data_pairKey] at hd
  have h1 := congrArg splitPipe hd
  rw [splitPipe_append _ ha, splitPipe_append _ hc] at h1
  have hhead : a.data = c.data := (List.cons.injEq _ _ _ _ ▸ h1).1
  have htail : splitPipe b.data = splitPipe d.data := (List.cons.injEq _ _ _ _ ▸ h1).2
  constructor
  · cases a; cases c; exact congrArg String.mk hhead
  · have := splitPipe_inj htail
    cases b; cases d; exact congrArg String.mk this

theorem splitPipe_length (l : List Char) : (splitPipe l).length = l.count '|' + 1 := by
  induction l with
  | nil => rfl
  | cons c rest ih =>
    by_cases h : c = '|'
    · subst h
      rw [splitPipe, if_pos rfl]
      simp [List.count_cons, ih]
    · rw [splitPipe, if_neg h]
      cases hs : splitPipe rest with
      | nil => exact absurd hs (splitPipe_ne_nil rest)
      | cons p ps =>
        have : rest.count '|' + 1 = (p :: ps).length := by rw [← ih, hs]
        simp only [List.length_cons] at this ⊢
        have hcc : (List.count '|' (c :: rest)) = List.count '|' rest := by
          simp [List.count_cons, h]
        omega

theorem pipeFree_of_splitKey_pair {p q x y : String}
    (h : splitKey (pairKey p q) = [x, y]) : pipeFree p ∧ pipeFree q ∧ x = p ∧ y = q := by
  have hlen : (splitPipe (pairKey p q).data).length = 2 := by
    have := congrArg List.length h
    simpa [splitKey] using this
  rw [splitPipe_length, data_pairKey] at hlen
  simp only [List.count_append, List.count_cons,
    (by decide : (('|' == '|') = true)), if_true] at hlen
  have hp : pipeFree p := by
    have h0 : p.data.count '|' = 0 := by omega
    exact List.count_eq_zero.mp h0
  have hq : pipeFree q := by
    have h0 : q.data.count '|' = 0 := by omega
    exact List.count_eq_zero.mp h0
  have hs := splitKey_pairKey hp hq
  rw [h] at hs
  simp only [List.cons.injEq, and_true] at hs
  exact ⟨hp, hq, hs.1, hs.2⟩

theorem canonPairKey_comm (a b : String) : canonPairKey a b = canonPairKey b a := by
  unfold canonPairKey
  by_cases hab : sleProp a b
  · by_cases hba : sleProp b a
    · have : a = b := antisymm hab hba
      rw [this]
    · rw [if_pos hab, if_neg hba]
  · rcases IsTotal.total (r := sleProp) a b with h | h
    · exact absurd h hab
    · rw [if_neg hab, if_pos h]

theorem canonPairKey_pair_eq {a b c d : String} (ha : pipeFree a) (hb : pipeFree b)
    (hc : pipeFree c) (hd : pipeFree d) (h : canonPairKey a b = canonPairKey c d) :
    (a = c ∧ b = d) ∨ (a = d ∧ b = c) := by
  unfold canonPairKey at h
  by_cases h1 : sleProp a b <;> by_cases h2 : sleProp c d <;>
    simp only [h1, h2, if_pos, if_neg, if_true, if_false] at h
  · exact Or.inl (pairKey_inj ha hc h)
  · obtain ⟨hx, hy⟩ := pairKey_inj ha hd h
    exact Or.inr ⟨hx, hy⟩
  · obtain ⟨hx, hy⟩ := pairKey_inj hb hc h
    exact Or.inr ⟨hy, hx⟩
  · obtain ⟨hx, hy⟩ := pairKey_inj hb hd h
    exact Or.inl ⟨hy, hx⟩

/-! ### netting.py - filter and key helpers -/

theorem splitPipe_parts : ∀ (l p : List Char), p ∈ splitPipe l → '|' ∉ p := by
  intro l
  induction l with
  | nil =>
    intro p hp
    simp only [splitPipe, List.mem_cons, List.not_mem_nil, or_false] at hp
    simp [hp]
  | cons c rest ih =>
    intro p hp
    by_cases h : c = '|'
    · rw [splitPipe, if_pos h] at hp
      rcases List.mem_cons.mp hp with h1 | h1
      · simp [h1]
      · exact ih p h1
    · rw [splitPipe, if_neg h] at hp
      cases hs : splitPipe rest with
      | nil => exact absurd hs (splitPipe_ne_nil rest)
      | cons q qs =>
        rw [hs] at hp
        rcases List.mem_cons.mp hp with h1 | h1
        · subst h1
          intro hc
          rcases List.mem_cons.mp hc with h2 | h2
          · exact h h2.symm
          · exact ih q (hs ▸ List.mem_cons_self q qs) h2
        · exact ih p (hs ▸ List.mem_cons_of_mem q h1)

theorem splitKey_eq_pair {k a b : String} (h : splitKey k = [a, b]) :
    k = pairKey a b ∧ pipeFree a ∧ pipeFree b := by
  have hsp : splitPipe k.data = [a.data, b.data] := by
    have hm : (splitPipe k.data).map String.mk = [a, b] := h
    cases hx : splitPipe k.data with
    | nil => rw [hx] at hm; exact absurd hm (by simp)
    | cons p ps =>
      rw [hx] at hm
      cases ps with
      | nil => exact absurd hm (by simp)
      | cons q qs =>
        cases qs with
        | nil =>
          simp only [List.map_cons, List.map_nil, List.cons.injEq, and_true] at hm
          rw [← hm.1, ← hm.2]
        | cons u us => exact absurd hm (by simp)
  have ha : pipeFree a := splitPipe_parts k.data a.data (hsp ▸ by simp)
  have hb : pipeFree b := splitPipe_parts k.data b.data (hsp ▸ by simp)
  refine ⟨?_, ha, hb⟩
  have := congrArg joinPipe hsp
  rw [joinPipe_splitPipe] at this
  have hjoin : joinPipe [a.data, b.data] = a.data ++ '|' :: b.data := rfl
  rw [hjoin] at this
  have : k.data = (pairKey a b).data := by rw [this, data_pairKey]
  cases k
  exact congrArg String.mk (by simpa [data_pairKey] using this)

theorem filter_key_eq_nil {net : List (String × Int)} {k : String}
    (h : k ∉ net.map Prod.fst) : net.filter (fun e => e.1 = k) = [] := by
  induction net with
  | nil => rfl
  | cons e rest ih =>
    simp only [List.map_cons, List.mem_cons] at h
    push_neg at h
    rw [List.filter_cons]
    simp only [decide_eq_true_eq]
    rw [if_neg (fun hh => h.1 hh.symm)]
    exact ih h.2

theorem filter_dset_ne {net : List (String × Int)} {K k : String} (hne : K ≠ k) (v : Int) :
    (dset net K v).filter (fun e => e.1 = k) = net.filter (fun e => e.1 = k) := by
  induction net with
  | nil =>
    simp only [dset, List.filter_cons, List.filter_nil]
    simp [hne]
  | cons e rest ih =>
    obtain ⟨k₀, v₀⟩ := e
    by_cases h0 : k₀ = K
    · rw [dset_cons_eq h0]
      rw [List.filter_cons, List.filter_cons]
      simp only [decide_eq_true_eq]
      rw [if_neg (by simpa using hne), if_neg (by simp [h0 ▸ hne] : ¬ k₀ = k)]
    · rw [dset_cons_ne h0]
      rw [List.filter_cons, List.filter_cons]
      by_cases h1 : k₀ = k
      · simp only [decide_eq_true_eq]
        rw [if_pos h1, if_pos h1, ih]
      · simp only [decide_eq_true_eq]
        rw [if_neg h1, if_neg h1, ih]

theorem filter_dset_append {net : List (String × Int)} {k : String}
    (h : k ∉ net.map Prod.fst) (v : Int) :
    (dset net k v).filter (fun e => e.1 = k) = [(k, v)] := by
  rw [dset_eq_append v h, List.filter_append, filter_key_eq_nil h]
  simp

theorem dget_of_mem {net : List (String × Int)} {k : String} {v : Int}
    (hmem : (k, v) ∈ net) (hnd : (net.map Prod.fst).Nodup) : dget net k 0 = v := by
  induction net with
  | nil => exact absurd hmem (List.not_mem_nil _)
  | cons e rest ih =>
    obtain ⟨k₀, v₀⟩ := e
    simp only [List.map_cons, List.nodup_cons] at hnd
    rcases List.mem_cons.mp hmem with h1 | h1
    · obtain ⟨hk, hv⟩ : k₀ = k ∧ v₀ = v :=
        ⟨(congrArg Prod.fst h1).symm, (congrArg Prod.snd h1).symm⟩
      rw [dget_cons_eq hk, hv]
    · have hk : ¬ k₀ = k := by
        intro hh
        exact hnd.1 (hh ▸ List.mem_map_of_mem Prod.fst h1)
      rw [dget_cons_ne hk]
      exact ih h1 hnd.2

theorem exists_mem_of_mem_keys {net : List (String × Int)} {k : String}
    (h : k ∈ net.map Prod.fst) : ∃ v, (k, v) ∈ net := by
  rcases List.mem_map.mp h with ⟨e, he, hk⟩
  exact ⟨e.2, by rwa [show (k, e.2) = e from by rw [← hk]]⟩

theorem filter_nil_of_not_mem {l : List String} {k : String} (h : k ∉ l) :
    l.filter (fun x => x = k) = [] := by
  apply List.filter_eq_nil_iff.mpr
  intro y hy
  simp only [decide_eq_true_eq]
  intro hyk
  exact h (hyk ▸ hy)

theorem filter_singleton_of_nodup {l : List String} {k : String} (hnd : l.Nodup)
    (hmem : k ∈ l) : l.filter (fun x => x = k) = [k] := by
  induction l with
  | nil => exact absurd hmem (List.not_mem_nil _)
  | cons x rest ih =>
    simp only [List.nodup_cons] at hnd
    rcases List.mem_cons.mp hmem with h1 | h1
    · have hxk : x = k := h1.symm
      subst hxk
      simp [List.filter_cons, filter_nil_of_not_mem hnd.1]
    · have hx : ¬ x = k := fun hh => hnd.1 (by rw [hh]; exact h1)
      rw [List.filter_cons]
      simp only [decide_eq_true_eq]
      rw [if_neg hx]
      exact ih hnd.2 h1

/-! ### netting.py - pair loop lemmas -/

theorem pairLoop_congr {bal₁ bal₂ : List (String × Int)}
    (hb : ∀ k, dget bal₁ k 0 = dget bal₂ k 0) :
    ∀ (keys processed : List String) (net : List (String × Int)),
    pairLoop bal₁ keys processed net = pairLoop bal₂ keys processed net := by
  intro keys
  induction keys with
  | nil => intro processed net; rfl
  | cons key rest ih =>
    intro processed net
    cases hsk : splitKey key with
    | nil => simp only [pairLoop, hsk]
    | cons a t =>
      cases t with
      | nil => simp only [pairLoop, hsk]
      | cons b t2 =>
        cases t2 with
        | cons c t3 => simp only [pairLoop, hsk]
        | nil =>
          simp only [pairLoop, hsk, hb]
          by_cases hpm : canonPairKey a b ∈ processed
          · rw [if_pos hpm, if_pos hpm, ih]
          · rw [if_neg hpm, if_neg hpm, ih]

theorem pairLoop_nodup {bal : List (String × Int)} :
    ∀ {keys processed : List String} {net final : List (String × Int)},
    pairLoop bal keys processed net = .ok final →
    (net.map Prod.fst).Nodup → (final.map Prod.fst).Nodup := by
  intro keys
  induction keys with
  | nil =>
    intro processed net final h hnd
    simp only [pairLoop, Except.ok.injEq] at h
    exact h ▸ hnd
  | cons key rest ih =>
    intro processed net final h hnd
    cases hsk : splitKey key with
    | nil => simp only [pairLoop, hsk] at h; exact absurd h (by simp)
    | cons a t =>
      cases t with
      | nil => simp only [pairLoop, hsk] at h; exact absurd h (by simp)
      | cons b t2 =>
        cases t2 with
        | cons c t3 => simp only [pairLoop, hsk] at h; exact absurd h (by simp)
        | nil =>
          simp only [pairLoop, hsk] at h
          by_cases hpm : canonPairKey a b ∈ processed
          · rw [if_pos hpm] at h
            exact ih h hnd
          · rw [if_neg hpm] at h
            by_cases h1 : dget bal (pairKey a b) 0 > dget bal (pairKey b a) 0
            · rw [if_pos h1] at h
              exact ih h (nodup_keys_dset net _ _ hnd)
            · rw [if_neg h1] at h
              by_cases h2 : dget bal (pairKey b a) 0 > dget bal (pairKey a b) 0
              · rw [if_pos h2] at h
                exact ih h (nodup_keys_dset net _ _ hnd)
              · rw [if_neg h2] at h
                exact ih h hnd

theorem pairLoop_frame {bal : List (String × Int)} :
    ∀ {keys processed : List String} {net final : List (String × Int)},
    pairLoop bal keys processed net = .ok final →
    ∀ x y : String, pipeFree x → pipeFree y → canonPairKey x y ∈ processed →
    final.filter (fun e => e.1 = pairKey x y) = net.filter (fun e => e.1 = pairKey x y) := by
  intro keys
  induction keys with
  | nil =>
    intro processed net final h x y _ _ _
    simp only [pairLoop, Except.ok.injEq] at h
    rw [h]
  | cons key rest ih =>
    intro processed net final h x y hpx hpy hxy
    cases hsk : splitKey key with
    | nil => simp only [pairLoop, hsk] at h; exact absurd h (by simp)
    | cons a t =>
      cases t with
      | nil => simp only [pairLoop, hsk] at h; exact absurd h (by simp)
      | cons b t2 =>
        cases t2 with
        | cons c t3 => simp only [pairLoop, hsk] at h; exact absurd h (by simp)
        | nil =>
          obtain ⟨hkey, hpa, hpb⟩ := splitKey_eq_pair hsk
          simp only [pairLoop, hsk] at h
          by_cases hpm : canonPairKey a b ∈ processed
          · rw [if_pos hpm] at h
            exact ih h x y hpx hpy hxy
          · rw [if_neg hpm] at h
            have hne : canonPairKey x y ≠ canonPairKey a b := fun hh => hpm (hh ▸ hxy)
            have hne1 : pairKey a b ≠ pairKey x y := by
              intro hh
              obtain ⟨h1, h2⟩ := pairKey_inj hpa hpx hh
              exact hne (by rw [h1, h2])
            have hne2 : pairKey b a ≠ pairKey x y := by
              intro hh
              obtain ⟨h1, h2⟩ := pairKey_inj hpb hpx hh
              exact hne (by rw [h1, h2, canonPairKey_comm])
            by_cases h1 : dget bal (pairKey a b) 0 > dget bal (pairKey b a) 0
            · rw [if_pos h1] at h
              rw [ih h x y hpx hpy (List.mem_cons_of_mem _ hxy), filter_dset_ne hne1]
            · rw [if_neg h1] at h
              by_cases h2 : dget bal (pairKey b a) 0 > dget bal (pairKey a b) 0
              · rw [if_pos h2] at h
                rw [ih h x y hpx hpy (List.mem_cons_of_mem _ hxy), filter_dset_ne hne2]
              · rw [if_neg h2] at h
                exact ih h x y hpx hpy (List.mem_cons_of_mem _ hxy)

theorem pairLoop_mem {bal : List (String × Int)} :
    ∀ {keys processed : List String} {net final : List (String × Int)},
    pairLoop bal keys processed net = .ok final →
    ∀ e ∈ final, e ∈ net ∨ ∃ a b : String, pipeFree a ∧ pipeFree b ∧ a ≠ b ∧
      e.1 = pairKey a b ∧ (pairKey a b ∈ keys ∨ pairKey b a ∈ keys) ∧
      dget bal (pairKey b a) 0 < dget bal (pairKey a b) 0 ∧
      e.2 = dget bal (pairKey a b) 0 - dget bal (pairKey b a) 0 := by
  intro keys
  induction keys with
  | nil =>
    intro processed net final h e he
    simp only [pairLoop, Except.ok.injEq] at h
    exact Or.inl (h ▸ he)
  | cons key rest ih =>
    intro processed net final h e he
    have weaken : (e ∈ net ∨ ∃ a b : String, pipeFree a ∧ pipeFree b ∧ a ≠ b ∧
        e.1 = pairKey a b ∧ (pairKey a b ∈ rest ∨ pairKey b a ∈ rest) ∧
        dget bal (pairKey b a) 0 < dget bal (pairKey a b) 0 ∧
        e.2 = dget bal (pairKey a b) 0 - dget bal (pairKey b a) 0) →
        (e ∈ net ∨ ∃ a b : String, pipeFree a ∧ pipeFree b ∧ a ≠ b ∧
        e.1 = pairKey a b ∧ (pairKey a b ∈ key :: rest ∨ pairKey b a ∈ key :: rest) ∧
        dget bal (pairKey b a) 0 < dget bal (pairKey a b) 0 ∧
        e.2 = dget bal (pairKey a b) 0 - dget bal (pairKey b a) 0) := by
      rintro (h1 | ⟨a, b, hpa, hpb, hab, h1, h2, h3, h4⟩)
      · exact Or.inl h1
      · refine Or.inr ⟨a, b, hpa, hpb, hab, h1, ?_, h3, h4⟩
        rcases h2 with h2 | h2
        · exact Or.inl (List.mem_cons_of_mem _ h2)
        · exact Or.inr (List.mem_cons_of_mem _ h2)
    cases hsk : splitKey key with
    | nil => simp only [pairLoop, hsk] at h; exact absurd h (by simp)
    | cons a t =>
      cases t with
      | nil => simp only [pairLoop, hsk] at h; exact absurd h (by simp)
      | cons b t2 =>
        cases t2 with
        | cons c t3 => simp only [pairLoop, hsk] at h; exact absurd h (by simp)
        | nil =>
          obtain ⟨hkey, hpa, hpb⟩ := splitKey_eq_pair hsk
          simp only [pairLoop, hsk] at h
          by_cases hpm : canonPairKey a b ∈ processed
          · rw [if_pos hpm] at h
            exact weaken (ih h e he)
          · rw [if_neg hpm] at h
            by_cases h1 : dget bal (pairKey a b) 0 > dget bal (pairKey b a) 0
            · rw [if_pos h1] at h
              rcases ih h e he with h2 | h2
              · obtain ⟨k, v⟩ := e
                rcases mem_of_mem_dset h2 with h3 | ⟨h3, h4⟩
                · exact Or.inl h3
                · have hne : a ≠ b := by
                    intro hh
                    rw [hh] at h1
                    exact lt_irrefl _ h1
                  exact Or.inr ⟨a, b, hpa, hpb, hne, h3,
                    Or.inl (hkey ▸ List.mem_cons_self key rest), gt_iff_lt.mp h1, h4⟩
              · exact weaken (Or.inr h2)
            · rw [if_neg h1] at h
              by_cases h2 : dget bal (pairKey b a) 0 > dget bal (pairKey a b) 0
              · rw [if_pos h2] at h
                rcases ih h e he with h3 | h3
                · obtain ⟨k, v⟩ := e
                  rcases mem_of_mem_dset h3 with h4 | ⟨h4, h5⟩
                  · exact Or.inl h4
                  · have hne : b ≠ a := by
                      intro hh
                      rw [hh] at h2
                      exact lt_irrefl _ h2
                    exact Or.inr ⟨b, a, hpb, hpa, hne, h4,
                      Or.inr (hkey ▸ List.mem_cons_self key rest), gt_iff_lt.mp h2, h5⟩
                · exact weaken (Or.inr h3)
              · rw [if_neg h2] at h
                exact weaken (ih h e he)

theorem pairLoop_filter {bal : List (String × Int)} :
    ∀ {keys processed : List String} {net final : List (String × Int)},
    pairLoop bal keys processed net = .ok final →
    (∀ x y : String, pipeFree x → pipeFree y → canonPairKey x y ∉ processed →
      pairKey x y ∉ net.map Prod.fst) →
    ∀ a b : String, pipeFree a → pipeFree b → a ≠ b → canonPairKey a b ∉ processed →
    final.filter (fun e => e.1 = pairKey a b) =
      (if (pairKey a b ∈ keys ∨ pairKey b a ∈ keys)
          ∧ dget bal (pairKey b a) 0 < dget bal (pairKey a b) 0
        then [(pairKey a b, dget bal (pairKey a b) 0 - dget bal (pairKey b a) 0)] else []) := by
  intro keys
  induction keys with
  | nil =>
    intro processed net final h hnet a b hpa hpb hab hnp
    simp only [pairLoop, Except.ok.injEq] at h
    rw [← h, filter_key_eq_nil (hnet a b hpa hpb hnp),
      if_neg (by simp : ¬ ((pairKey a b ∈ ([] : List String) ∨ pairKey b a ∈ ([] : List String))
        ∧ dget bal (pairKey b a) 0 < dget bal (pairKey a b) 0))]
  | cons key rest ih =>
    intro processed net final h hnet a b hpa hpb hab hnp
    cases hsk : splitKey key with
    | nil => simp only [pairLoop, hsk] at h; exact absurd h (by simp)
    | cons c t =>
      cases t with
      | nil => simp only [pairLoop, hsk] at h; exact absurd h (by simp)
      | cons d t2 =>
        cases t2 with
        | cons z t3 => simp only [pairLoop, hsk] at h; exact absurd h (by simp)
        | nil =>
          obtain ⟨hkey, hpc, hpd⟩ := splitKey_eq_pair hsk
          simp only [pairLoop, hsk] at h
          by_cases hpm : canonPairKey c d ∈ processed
          · rw [if_pos hpm] at h
            have hne1 : pairKey a b ≠ key := by
              intro hh
              rw [hkey] at hh
              obtain ⟨h1, h2⟩ := pairKey_inj hpa hpc hh
              rw [h1, h2] at hnp
              exact hnp hpm
            have hne2 : pairKey b a ≠ key := by
              intro hh
              rw [hkey] at hh
              obtain ⟨h1, h2⟩ := pairKey_inj hpb hpc hh
              rw [canonPairKey_comm] at hnp
              rw [h1, h2] at hnp
              exact hnp hpm
            rw [ih h hnet a b hpa hpb hab hnp]
            refine if_congr ?_ rfl rfl
            simp only [List.mem_cons, hne1, hne2, false_or]
          · rw [if_neg hpm] at h
            by_cases hsame : canonPairKey a b = canonPairKey c d
            · have hframe := pairLoop_frame h a b hpa hpb
                (hsame ▸ List.mem_cons_self (canonPairKey c d) processed)
              rw [hframe]
              have hkeymem : key ∈ key :: rest := List.mem_cons_self key rest
              rcases canonPairKey_pair_eq hpa hpb hpc hpd hsame with ⟨rfl, rfl⟩ | ⟨rfl, rfl⟩
              · by_cases h1 : dget bal (pairKey a b) 0 > dget bal (pairKey b a) 0
                · rw [if_pos h1, filter_dset_append (hnet a b hpa hpb hnp)]
                  rw [if_pos ⟨Or.inl (hkey ▸ hkeymem), gt_iff_lt.mp h1⟩]
                · rw [if_neg h1]
                  by_cases h2 : dget bal (pairKey b a) 0 > dget bal (pairKey a b) 0
                  · rw [if_pos h2]
                    have hne : pairKey b a ≠ pairKey a b := by
                      intro hh
                      obtain ⟨h3, _⟩ := pairKey_inj hpb hpa hh
                      exact hab h3.symm
                    rw [filter_dset_ne hne, filter_key_eq_nil (hnet a b hpa hpb hnp)]
                    rw [if_neg (by
                      rintro ⟨_, hlt⟩
                      exact lt_asymm (gt_iff_lt.mp h2) hlt)]
                  · rw [if_neg h2]
                    rw [filter_key_eq_nil (hnet a b hpa hpb hnp)]
                    rw [if_neg (by
                      rintro ⟨_, hlt⟩
                      exact h1 hlt)]
              · by_cases h1 : dget bal (pairKey b a) 0 > dget bal (pairKey a b) 0
                · rw [if_pos h1]
                  have hne : pairKey b a ≠ pairKey a b := by
                    intro hh
                    obtain ⟨h3, _⟩ := pairKey_inj hpb hpa hh
                    exact hab h3.symm
                  rw [filter_dset_ne hne, filter_key_eq_nil (hnet a b hpa hpb hnp)]
                  rw [if_neg (by
                    rintro ⟨_, hlt⟩
                    exact lt_asymm (gt_iff_lt.mp h1) hlt)]
                · rw [if_neg h1]
                  by_cases h2 : dget bal (pairKey a b) 0 > dget bal (pairKey b a) 0
                  · rw [if_pos h2, filter_dset_append (hnet a b hpa hpb hnp)]
                    rw [if_pos ⟨Or.inr (hkey ▸ hkeymem), gt_iff_lt.mp h2⟩]
                  · rw [if_neg h2]
                    rw [filter_key_eq_nil (hnet a b hpa hpb hnp)]
                    rw [if_neg (by
                      rintro ⟨_, hlt⟩
                      exact h2 hlt)]
            · have hnp' : canonPairKey a b ∉ canonPairKey c d :: processed := by
                simp only [List.mem_cons]
                rintro (hh | hh)
                · exact hsame hh
                · exact hnp hh
              have hcondiff : ∀ {fin2 : List (String × Int)},
                  fin2.filter (fun e => e.1 = pairKey a b) =
                    (if (pairKey a b ∈ rest ∨ pairKey b a ∈ rest)
                        ∧ dget bal (pairKey b a) 0 < dget bal (pairKey a b) 0
                      then [(pairKey a b, dget bal (pairKey a b) 0 - dget bal (pairKey b a) 0)]
                      else []) →
                  fin2.filter (fun e => e.1 = pairKey a b) =
                    (if (pairKey a b ∈ key :: rest ∨ pairKey b a ∈ key :: rest)
                        ∧ dget bal (pairKey b a) 0 < dget bal (pairKey a b) 0
                      then [(pairKey a b, dget bal (pairKey a b) 0 - dget bal (pairKey b a) 0)]
                      else []) := by
                intro fin2 hf
                rw [hf]
                refine if_congr ?_ rfl rfl
                have hne1 : pairKey a b ≠ key := by
                  intro hh
                  rw [hkey] at hh
                  obtain ⟨h1, h2⟩ := pairKey_inj hpa hpc hh
                  exact hsame (by rw [h1, h2])
                have hne2 : pairKey b a ≠ key := by
                  intro hh
                  rw [hkey] at hh
                  obtain ⟨h1, h2⟩ := pairKey_inj hpb hpc hh
                  exact hsame (by rw [← h1, ← h2, canonPairKey_comm])
                simp only [List.mem_cons, hne1, hne2, false_or]
              have hnet' : ∀ (K : String) (v : Int), (K = pairKey c d ∨ K = pairKey d c) →
                  ∀ x y : String, pipeFree x → pipeFree y →
                  canonPairKey x y ∉ canonPairKey c d :: processed →
                  pairKey x y ∉ (dset net K v).map Prod.fst := by
                intro K v hK x y hpx hpy hnxy
                simp only [List.mem_cons] at hnxy
                push_neg at hnxy
                rw [mem_keys_dset]
                rintro (hh | hh)
                · rcases hK with hK | hK
                  · rw [hK] at hh
                    obtain ⟨h1, h2⟩ := pairKey_inj hpx hpc hh
                    exact hnxy.1 (by rw [h1, h2])
                  · rw [hK] at hh
                    obtain ⟨h1, h2⟩ := pairKey_inj hpx hpd hh
                    exact hnxy.1 (by rw [h1, h2, canonPairKey_comm])
                · exact hnet x y hpx hpy hnxy.2 hh
              by_cases h1 : dget bal (pairKey c d) 0 > dget bal (pairKey d c) 0
              · rw [if_pos h1] at h
                exact hcondiff (ih h (hnet' _ _ (Or.inl rfl)) a b hpa hpb hab hnp')
              · rw [if_neg h1] at h
                by_cases h2 : dget bal (pairKey d c) 0 > dget bal (pairKey c d) 0
                · rw [if_pos h2] at h
                  exact hcondiff (ih h (hnet' _ _ (Or.inr rfl)) a b hpa hpb hab hnp')
                · rw [if_neg h2] at h
                  have hnet'' : ∀ x y : String, pipeFree x → pipeFree y →
                      canonPairKey x y ∉ canonPairKey c d :: processed →
                      pairKey x y ∉ net.map Prod.fst := by
                    intro x y hpx hpy hnxy
                    simp only [List.mem_cons] at hnxy
                    push_neg at hnxy
                    exact hnet x y hpx hpy hnxy.2
                  exact hcondiff (ih h hnet'' a b hpa hpb hab hnp')

/-! ### netting.py - gross flow lemmas -/

theorem sortStr_nodup {l : List String} (h : l.Nodup) : (sortStr l).Nodup :=
  ((sortStr_perm l).nodup_iff).mpr h

theorem mem_sortStr {x : String} {l : List String} : x ∈ sortStr l ↔ x ∈ l :=
  (sortStr_perm l).mem_iff

theorem sorted_nodup_ext {l₁ l₂ : List String} (s₁ : List.Sorted sleProp l₁)
    (s₂ : List.Sorted sleProp l₂) (n₁ : l₁.Nodup) (n₂ : l₂.Nodup)
    (h : ∀ x, x ∈ l₁ ↔ x ∈ l₂) : l₁ = l₂ :=
  List.eq_of_perm_of_sorted ((List.perm_ext_iff_of_nodup n₁ n₂).mpr h) s₁ s₂

theorem grossK_perm {rs₁ rs₂ : List MSR} (h : List.Perm rs₁ rs₂) (k : String) :
    grossK rs₁ k = grossK rs₂ k :=
  ((h.filter _).map MSR.price_usd_micros).sum_eq

theorem gross_perm {rs₁ rs₂ : List MSR} (h : List.Perm rs₁ rs₂) (a b : String) :
    gross rs₁ a b = gross rs₂ a b :=
  ((h.filter _).map MSR.price_usd_micros).sum_eq

theorem msrKey_eq_pairKey {a b : String} (ha : pipeFree a) (hb : pipeFree b) (r : MSR) :
    msrKey r = pairKey a b ↔ r.payer_agent_id = a ∧ r.payee_agent_id = b := by
  constructor
  · intro h
    have hs : splitKey (msrKey r) = [a, b] := by rw [h]; exact splitKey_pairKey ha hb
    simp only [msrKey] at hs
    obtain ⟨_, _, h1, h2⟩ := pipeFree_of_splitKey_pair hs
    exact ⟨h1.symm, h2.symm⟩
  · rintro ⟨h1, h2⟩
    rw [msrKey, h1, h2]

theorem grossK_pairKey {a b : String} (ha : pipeFree a) (hb : pipeFree b) (rs : List MSR) :
    grossK rs (pairKey a b) = gross rs a b := by
  simp only [grossK, gross]
  have h : rs.filter (fun r => decide (msrKey r = pairKey a b))
      = rs.filter (fun r => decide (r.payer_agent_id = a ∧ r.payee_agent_id = b)) :=
    List.filter_congr (fun r _ => decide_eq_decide.mpr (msrKey_eq_pairKey ha hb r))
  rw [h]

theorem grossK_ne_zero {rs : List MSR} {k : String} (h : grossK rs k ≠ 0) :
    ∃ r ∈ rs, msrKey r = k := by
  by_contra hc
  push_neg at hc
  apply h
  simp only [grossK]
  have hf : rs.filter (fun r => decide (msrKey r = k)) = [] := by
    apply List.filter_eq_nil_iff.mpr
    intro r hr
    simpa using hc r hr
  rw [hf]
  rfl

/-! ### netting.py - success of the pair loop and the obligation loop -/

theorem pairLoop_ok (bal : List (String × Int)) :
    ∀ {keys : List String}, (∀ k ∈ keys, ∃ x y, splitKey k = [x, y]) →
    ∀ (processed : List String) (net : List (String × Int)),
    ∃ final, pairLoop bal keys processed net = .ok final := by
  intro keys
  induction keys with
  | nil => intro _ processed net; exact ⟨net, rfl⟩
  | cons key rest ih =>
    intro hk processed net
    obtain ⟨x, y, hxy⟩ := hk key (List.mem_cons_self key rest)
    have hrest : ∀ k ∈ rest, ∃ x y, splitKey k = [x, y] :=
      fun k hk2 => hk k (List.mem_cons_of_mem key hk2)
    by_cases hpm : canonPairKey x y ∈ processed
    · obtain ⟨final, hf⟩ := ih hrest processed net
      refine ⟨final, ?_⟩
      simp only [pairLoop, hxy]
      rw [if_pos hpm]
      exact hf
    · obtain ⟨final, hf⟩ := ih hrest (canonPairKey x y :: processed)
        (if dget bal (pairKey x y) 0 > dget bal (pairKey y x) 0
         then dset net (pairKey x y) (dget bal (pairKey x y) 0 - dget bal (pairKey y x) 0)
         else if dget bal (pairKey y x) 0 > dget bal (pairKey x y) 0
         then dset net (pairKey y x) (dget bal (pairKey y x) 0 - dget bal (pairKey x y) 0)
         else net)
      refine ⟨final, ?_⟩
      simp only [pairLoop, hxy]
      rw [if_neg hpm]
      exact hf

/-- Helper describing the obligation built from a net-balance key of pair
form; on keys that do not split in two (never produced by the pair loop) it
returns a junk value. -/
def oblOf (net : List (String × Int)) (k : String) : NetObligation :=
  match splitKey k with
  | [f, t] => ⟨f, t, dget net k 0⟩
  | _ => ⟨k, k, dget net k 0⟩

theorem oblLoop_ok (net : List (String × Int)) :
    ∀ {ks : List String}, (∀ k ∈ ks, ∃ x y, splitKey k = [x, y]) →
    oblLoop net ks = .ok (ks.map (oblOf net)) := by
  intro ks
  induction ks with
  | nil => intro _; rfl
  | cons k rest ih =>
    intro hk
    obtain ⟨x, y, hxy⟩ := hk k (List.mem_cons_self k rest)
    have hmk : mkObl net k = .ok ⟨x, y, dget net k 0⟩ := by
      simp only [mkObl, hxy]
    have hob : oblOf net k = ⟨x, y, dget net k 0⟩ := by
      simp only [oblOf, hxy]
    simp only [oblLoop, Bind.bind, hmk, Except.bind,
      ih (fun k2 h2 => hk k2 (List.mem_cons_of_mem k h2)), List.map_cons, hob]

theorem oblLoop_mem {net : List (String × Int)} :
    ∀ {ks : List String} {os : List NetObligation}, oblLoop net ks = .ok os →
    ∀ o ∈ os, ∃ k ∈ ks, mkObl net k = .ok o := by
  intro ks
  induction ks with
  | nil =>
    intro os h o ho
    simp only [oblLoop, Except.ok.injEq] at h
    rw [← h] at ho
    exact absurd ho (List.not_mem_nil o)
  | cons k rest ih =>
    intro os h o ho
    simp only [oblLoop, Bind.bind] at h
    cases hmk : mkObl net k with
    | error e => rw [hmk] at h; exact absurd h (by simp [Except.bind])
    | ok o₀ =>
      rw [hmk] at h
      cases hol : oblLoop net rest with
      | error e => rw [hol] at h; exact absurd h (by simp [Except.bind])
      | ok os₀ =>
        rw [hol] at h
        simp only [Except.bind, Except.ok.injEq] at h
        rw [← h] at ho
        rcases List.mem_cons.mp ho with h1 | h1
        · exact ⟨k, List.mem_cons_self k rest, h1 ▸ hmk⟩
        · obtain ⟨k2, hk2, hmk2⟩ := ih hol o h1
          exact ⟨k2, List.mem_cons_of_mem k hk2, hmk2⟩

theorem mkObl_ok {net : List (String × Int)} {k : String} {o : NetObligation}
    (h : mkObl net k = .ok o) :
    splitKey k = [o.from_agent, o.to_agent] ∧ o.amount_usd_micros = dget net k 0 := by
  cases hsk : splitKey k with
  | nil => simp only [mkObl, hsk] at h; exact absurd h (by simp)
  | cons x t =>
    cases t with
    | nil => simp only [mkObl, hsk] at h; exact absurd h (by simp)
    | cons y t2 =>
      cases t2 with
      | cons z t3 => simp only [mkObl, hsk] at h; exact absurd h (by simp)
      | nil =>
        simp only [mkObl, hsk, Except.ok.injEq] at h
        rw [← h]
        exact ⟨rfl, rfl⟩

theorem check_obligations_none {ps : List String} :
    ∀ {os : List NetObligation},
    (∀ o ∈ os, o.from_agent ∈ ps ∧ o.to_agent ∈ ps ∧ o.from_agent ≠ o.to_agent ∧
      0 < o.amount_usd_micros) →
    check_obligations ps os = none := by
  intro os
  induction os with
  | nil => intro _; rfl
  | cons o rest ih =>
    intro h
    obtain ⟨h1, h2, h3, h4⟩ := h o (List.mem_cons_self o rest)
    simp only [check_obligations]
    rw [if_neg (by simpa using h1), if_neg (by simpa using h2), if_neg h3,
      if_neg (by omega : ¬ o.amount_usd_micros ≤ 0)]
    exact ih (fun o2 ho2 => h o2 (List.mem_cons_of_mem o ho2))

/-! ### netting.py - participants and net-key shape -/

theorem mem_participants {σ : List MSR} {x : String} :
    x ∈ sortStr ((σ.bind fun r => [r.payer_agent_id, r.payee_agent_id]).dedup) ↔
      ∃ r ∈ σ, x = r.payer_agent_id ∨ x = r.payee_agent_id := by
  rw [mem_sortStr, List.mem_dedup, List.mem_bind]
  constructor
  · rintro ⟨r, hr, hx⟩
    rcases List.mem_cons.mp hx with h | h
    · exact ⟨r, hr, Or.inl h⟩
    · exact ⟨r, hr, Or.inr (by simpa using h)⟩
  · rintro ⟨r, hr, (h | h)⟩
    · exact ⟨r, hr, by simp [h]⟩
    · exact ⟨r, hr, by simp [h]⟩

theorem net_keys_pair {bal net : List (String × Int)} {ks : List String}
    (h : pairLoop bal ks [] [] = .ok net) :
    ∀ k ∈ net.map Prod.fst,
    ∃ a b : String, pipeFree a ∧ pipeFree b ∧ a ≠ b ∧ k = pairKey a b := by
  intro k hk
  obtain ⟨v, hv⟩ := exists_mem_of_mem_keys hk
  rcases pairLoop_mem h (k, v) hv with hmem | ⟨a, b, ha, hb, hab, hk2, _, _, _⟩
  · exact absurd hmem (List.not_mem_nil _)
  · exact ⟨a, b, ha, hb, hab, hk2⟩

theorem endpoint_mem_participants {hashFn : MSR → String} {rs : List MSR} {a b : String}
    (ha : pipeFree a) (hb : pipeFree b)
    (hmem : pairKey a b ∈
      sortStr ((buildBalances (List.insertionSort (hashLe hashFn) rs)).map Prod.fst)) :
    a ∈ sortStr (((List.insertionSort (hashLe hashFn) rs).bind fun r =>
        [r.payer_agent_id, r.payee_agent_id]).dedup) ∧
    b ∈ sortStr (((List.insertionSort (hashLe hashFn) rs).bind fun r =>
        [r.payer_agent_id, r.payee_agent_id]).dedup) := by
  rw [mem_sortStr, mem_keys_buildBalances] at hmem
  obtain ⟨r, hr, hrk⟩ := hmem
  obtain ⟨h1, h2⟩ := (msrKey_eq_pairKey ha hb r).mp hrk
  exact ⟨mem_participants.mpr ⟨r, hr, Or.inl h1.symm⟩,
    mem_participants.mpr ⟨r, hr, Or.inr h2.symm⟩⟩

theorem obl_filter_char {net : List (String × Int)} {a b : String} (ha : pipeFree a) :
    ∀ {ks : List String},
    (∀ k ∈ ks, ∃ c d, pipeFree c ∧ pipeFree d ∧ k = pairKey c d) →
    (ks.map (oblOf net)).filter (fun o => o.from_agent = a ∧ o.to_agent = b)
      = (ks.filter (fun k => k = pairKey a b)).map (oblOf net) := by
  intro ks
  induction ks with
  | nil => intro _; rfl
  | cons k rest ih =>
    intro hpf
    obtain ⟨c, d, hc, hd, hk⟩ := hpf k (List.mem_cons_self k rest)
    have hsplit : splitKey k = [c, d] := by rw [hk]; exact splitKey_pairKey hc hd
    have hob : oblOf net k = ⟨c, d, dget net k 0⟩ := by simp only [oblOf, hsplit]
    have hiff : ((oblOf net k).from_agent = a ∧ (oblOf net k).to_agent = b)
        ↔ k = pairKey a b := by
      rw [hob]
      constructor
      · rintro ⟨h1, h2⟩
        have h1c : c = a := h1
        have h2d : d = b := h2
        rw [hk, h1c, h2d]
      · intro h
        rw [hk] at h
        obtain ⟨h1, h2⟩ := pairKey_inj hc ha h
        exact ⟨h1, h2⟩
    have hrest := ih (fun k2 h2 => hpf k2 (List.mem_cons_of_mem k h2))
    simp only [List.map_cons, List.filter_cons, decide_eq_true_eq]
    by_cases hcase : k = pairKey a b
    · rw [if_pos (hiff.mpr hcase), if_pos hcase, List.map_cons, hrest]
    · rw [if_neg (fun hh => hcase (hiff.mp hh)), if_neg hcase, hrest]

/-! ### netting.py - characterization of net_receipts -/

theorem net_receipts_ok (hashFn : MSR → String) (rs : List MSR)
    (hpf : ∀ r ∈ rs, pipeFree r.payer_agent_id ∧ pipeFree r.payee_agent_id) :
    ∃ res, net_receipts hashFn rs = .ok res ∧
      (∀ a b : String, pipeFree a → pipeFree b → a ≠ b →
        res.obligations.filter (fun o => o.from_agent = a ∧ o.to_agent = b) =
          if gross rs b a < gross rs a b
          then [⟨a, b, gross rs a b - gross rs b a⟩] else []) ∧
      (∀ x, x ∈ res.participants ↔
        ∃ r ∈ rs, x = r.payer_agent_id ∨ x = r.payee_agent_id) ∧
      List.Sorted sleProp res.participants ∧ res.participants.Nodup ∧
      res.total_volume = (rs.map MSR.price_usd_micros).sum := by
  have hperm : List.Perm (List.insertionSort (hashLe hashFn) rs) rs :=
    List.perm_insertionSort _ rs
  have hpfσ : ∀ r ∈ List.insertionSort (hashLe hashFn) rs,
      pipeFree r.payer_agent_id ∧ pipeFree r.payee_agent_id :=
    fun r hr => hpf r (hperm.mem_iff.mp hr)
  have hks2 : ∀ k ∈ sortStr
      ((buildBalances (List.insertionSort (hashLe hashFn) rs)).map Prod.fst),
      ∃ x y, splitKey k = [x, y] := by
    intro k hk
    rw [mem_sortStr] at hk
    obtain ⟨r, hr, hrk⟩ := (mem_keys_buildBalances _ k).mp hk
    obtain ⟨hp1, hp2⟩ := hpfσ r hr
    refine ⟨r.payer_agent_id, r.payee_agent_id, ?_⟩
    rw [← hrk]
    simp only [msrKey]
    exact splitKey_pairKey hp1 hp2
  obtain ⟨net, hnet⟩ := pairLoop_ok
    (buildBalances (List.insertionSort (hashLe hashFn) rs)) hks2 [] []
  have hnd : (net.map Prod.fst).Nodup := pairLoop_nodup hnet (by simp)
  have hpair := net_keys_pair hnet
  have hksn : ∀ k ∈ sortStr (net.map Prod.fst), ∃ x y, splitKey k = [x, y] := by
    intro k hk
    obtain ⟨a, b, ha, hb, _, hk2⟩ := hpair k (mem_sortStr.mp hk)
    exact ⟨a, b, by rw [hk2]; exact splitKey_pairKey ha hb⟩
  have hobl := oblLoop_ok net hksn
  have h0 : net_receipts hashFn rs
      = .ok ⟨(sortStr (net.map Prod.fst)).map (oblOf net),
        sortStr (((List.insertionSort (hashLe hashFn) rs).bind fun r =>
          [r.payer_agent_id, r.payee_agent_id]).dedup),
        sortStr (rs.map hashFn),
        ((List.insertionSort (hashLe hashFn) rs).map MSR.price_usd_micros).sum⟩ := by
    simp only [net_receipts, obligationsOf, Bind.bind, hnet, Except.bind, hobl,
      pure, Except.pure]
  have h1 : ∀ a b : String, pipeFree a → pipeFree b → a ≠ b →
      ((sortStr (net.map Prod.fst)).map (oblOf net)).filter
          (fun o => o.from_agent = a ∧ o.to_agent = b) =
        if gross rs b a < gross rs a b
        then [⟨a, b, gross rs a b - gross rs b a⟩] else [] := by
    intro a b ha hb hab
    have hnf := pairLoop_filter hnet
      (by intro x y _ _ _; simp) a b ha hb hab (by simp)
    have hda : dget (buildBalances (List.insertionSort (hashLe hashFn) rs))
        (pairKey a b) 0 = gross rs a b := by
      rw [dget_buildBalances, grossK_pairKey ha hb, gross_perm hperm]
    have hdb : dget (buildBalances (List.insertionSort (hashLe hashFn) rs))
        (pairKey b a) 0 = gross rs b a := by
      rw [dget_buildBalances, grossK_pairKey hb ha, gross_perm hperm]
    rw [hda, hdb] at hnf
    have hcequiv : ((pairKey a b ∈ sortStr
          ((buildBalances (List.insertionSort (hashLe hashFn) rs)).map Prod.fst)
        ∨ pairKey b a ∈ sortStr
          ((buildBalances (List.insertionSort (hashLe hashFn) rs)).map Prod.fst))
        ∧ gross rs b a < gross rs a b) ↔ gross rs b a < gross rs a b := by
      constructor
      · exact And.right
      · intro hlt
        refine ⟨?_, hlt⟩
        by_cases hz : gross rs a b = 0
        · refine Or.inr ?_
          rw [mem_sortStr, mem_keys_buildBalances]
          apply grossK_ne_zero
          rw [grossK_pairKey hb ha, gross_perm hperm]
          omega
        · refine Or.inl ?_
          rw [mem_sortStr, mem_keys_buildBalances]
          apply grossK_ne_zero
          rw [grossK_pairKey ha hb, gross_perm hperm]
          exact hz
    rw [if_congr hcequiv rfl rfl] at hnf
    have hpf2 : ∀ k ∈ sortStr (net.map Prod.fst),
        ∃ c d, pipeFree c ∧ pipeFree d ∧ k = pairKey c d := by
      intro k hk
      obtain ⟨c, d, hc, hd, _, hk2⟩ := hpair k (mem_sortStr.mp hk)
      exact ⟨c, d, hc, hd, hk2⟩
    rw [obl_filter_char ha hpf2]
    by_cases hcond : gross rs b a < gross rs a b
    · rw [if_pos hcond] at hnf
      rw [if_pos hcond]
      have hmemnet : (pairKey a b, gross rs a b - gross rs b a) ∈ net := by
        have hx : (pairKey a b, gross rs a b - gross rs b a)
            ∈ net.filter (fun e => e.1 = pairKey a b) := by
          rw [hnf]
          exact List.mem_cons_self _ _
        exact List.mem_of_mem_filter hx
      have hkmem : pairKey a b ∈ net.map Prod.fst :=
        List.mem_map_of_mem Prod.fst hmemnet
      rw [filter_singleton_of_nodup (sortStr_nodup hnd) (mem_sortStr.mpr hkmem)]
      have hob2 : oblOf net (pairKey a b) = ⟨a, b, dget net (pairKey a b) 0⟩ := by
        simp only [oblOf, splitKey_pairKey ha hb]
      have hdg : dget net (pairKey a b) 0 = gross rs a b - gross rs b a :=
        dget_of_mem hmemnet hnd
      rw [List.map_cons, List.map_nil, hob2, hdg]
    · rw [if_neg hcond] at hnf
      rw [if_neg hcond]
      have hnk : pairKey a b ∉ net.map Prod.fst := by
        intro hk
        obtain ⟨v, hv⟩ := exists_mem_of_mem_keys hk
        have hx : (pairKey a b, v) ∈ net.filter (fun e => e.1 = pairKey a b) :=
          List.mem_filter.mpr ⟨hv, by simp⟩
        rw [hnf] at hx
        exact absurd hx (List.not_mem_nil _)
      rw [filter_nil_of_not_mem (fun hh => hnk (mem_sortStr.mp hh)), List.map_nil]
  have h2 : ∀ x, x ∈ sortStr (((List.insertionSort (hashLe hashFn) rs).bind fun r =>
        [r.payer_agent_id, r.payee_agent_id]).dedup) ↔
      ∃ r ∈ rs, x = r.payer_agent_id ∨ x = r.payee_agent_id := by
    intro x
    rw [mem_participants]
    constructor
    · rintro ⟨r, hr, hx⟩
      exact ⟨r, hperm.mem_iff.mp hr, hx⟩
    · rintro ⟨r, hr, hx⟩
      exact ⟨r, hperm.mem_iff.mpr hr, hx⟩
  exact ⟨_, h0, h1, h2, sortStr_sorted _, sortStr_nodup (List.nodup_dedup _),
    (hperm.map MSR.price_usd_micros).sum_eq⟩

theorem net_components_eq (hf₁ hf₂ : MSR → String) {rs₁ rs₂ : List MSR}
    (h : List.Perm rs₁ rs₂) :
    sortStr ((buildBalances (List.insertionSort (hashLe hf₁) rs₁)).map Prod.fst)
      = sortStr ((buildBalances (List.insertionSort (hashLe hf₂) rs₂)).map Prod.fst) ∧
    (∀ k, dget (buildBalances (List.insertionSort (hashLe hf₁) rs₁)) k 0
      = dget (buildBalances (List.insertionSort (hashLe hf₂) rs₂)) k 0) ∧
    sortStr (((List.insertionSort (hashLe hf₁) rs₁).bind fun r =>
        [r.payer_agent_id, r.payee_agent_id]).dedup)
      = sortStr (((List.insertionSort (hashLe hf₂) rs₂).bind fun r =>
        [r.payer_agent_id, r.payee_agent_id]).dedup) ∧
    ((List.insertionSort (hashLe hf₁) rs₁).map MSR.price_usd_micros).sum
      = ((List.insertionSort (hashLe hf₂) rs₂).map MSR.price_usd_micros).sum := by
  have hp : List.Perm (List.insertionSort (hashLe hf₁) rs₁)
      (List.insertionSort (hashLe hf₂) rs₂) :=
    (List.perm_insertionSort _ rs₁).trans (h.trans (List.perm_insertionSort _ rs₂).symm)
  refine ⟨?_, ?_, ?_, ?_⟩
  · apply sortStr_eq_of_perm
    apply (List.perm_ext_iff_of_nodup (nodup_keys_buildBalances _)
      (nodup_keys_buildBalances _)).mpr
    intro k
    rw [mem_keys_buildBalances, mem_keys_buildBalances]
    constructor
    · rintro ⟨r, hr, hk⟩
      exact ⟨r, hp.mem_iff.mp hr, hk⟩
    · rintro ⟨r, hr, hk⟩
      exact ⟨r, hp.mem_iff.mpr hr, hk⟩
  · intro k
    rw [dget_buildBalances, dget_buildBalances]
    exact grossK_perm hp k
  · apply sorted_nodup_ext (sortStr_sorted _) (sortStr_sorted _)
      (sortStr_nodup (List.nodup_dedup _)) (sortStr_nodup (List.nodup_dedup _))
    intro x
    rw [mem_participants, mem_participants]
    constructor
    · rintro ⟨r, hr, hx⟩
      exact ⟨r, hp.mem_iff.mp hr, hx⟩
    · rintro ⟨r, hr, hx⟩
      exact ⟨r, hp.mem_iff.mpr hr, hx⟩
  · exact (hp.map MSR.price_usd_micros).sum_eq

/-- Claim C3: net_receipts is invariant under every permutation of its input
receipt list, field for field: the two runs return the same Except value, so
obligations, participants, receipt_hashes and total_volume all coincide. -/
theorem claim_C3_permutation_invariance (hashFn : MSR → String) (rs₁ rs₂ : List MSR)
    (h : List.Perm rs₁ rs₂) : net_receipts hashFn rs₁ = net_receipts hashFn rs₂ := by
  obtain ⟨hks, hdget, hparts, hvol⟩ := net_components_eq hashFn hashFn h
  have hhash : sortStr (rs₁.map hashFn) = sortStr (rs₂.map hashFn) :=
    sortStr_eq_of_perm (h.map hashFn)
  simp only [net_receipts]
  rw [hks, pairLoop_congr hdget, hhash, hparts, hvol]

theorem net_receipts_core_congr (hf₁ hf₂ : MSR → String) (rs : List MSR) :
    (net_receipts hf₁ rs).map
        (fun res => (res.obligations, res.participants, res.total_volume))
      = (net_receipts hf₂ rs).map
        (fun res => (res.obligations, res.participants, res.total_volume)) := by
  obtain ⟨hks, hdget, hparts, hvol⟩ := net_components_eq hf₁ hf₂ (List.Perm.refl rs)
  simp only [net_receipts]
  rw [hks, pairLoop_congr hdget, hparts, hvol]
  cases hpl : pairLoop (buildBalances (List.insertionSort (hashLe hf₂) rs))
      (sortStr ((buildBalances (List.insertionSort (hashLe hf₂) rs)).map Prod.fst))
      [] [] with
  | error e => simp [Bind.bind, Except.bind, Except.map]
  | ok net =>
    cases hob : obligationsOf net with
    | error e => simp [Bind.bind, Except.bind, hob, Except.map]
    | ok obls => simp [Bind.bind, Except.bind, hob, Except.map, pure, Except.pure]

/-! ### netting.py - the spec example -/

def mAB : MSR := ⟨"0.1", "A", "B", "api", 1, "call", 100, 0, "n1", "s", "q", "p", none, "sg"⟩

def mBA : MSR := ⟨"0.1", "B", "A", "api", 1, "call", 30, 0, "n2", "s", "q", "p", none, "sg"⟩

def mAC : MSR := ⟨"0.1", "A", "C", "api", 1, "call", 50, 0, "n3", "s", "q", "p", none, "sg"⟩

def mCA : MSR := ⟨"0.1", "C", "A", "api", 1, "call", 50, 0, "n4", "s", "q", "p", none, "sg"⟩

/-- The receipt list of the netting example in the specification:
(A to B, 100), (B to A, 30), (A to C, 50), (C to A, 50). -/
def exampleReceipts : List MSR := [mAB, mBA, mAC, mCA]

theorem net_receipts_example :
    net_receipts (fun _ => "") exampleReceipts =
      .ok ⟨[⟨"A", "B", 70⟩], ["A", "B", "C"], ["", "", "", ""], 230⟩ := rfl

/-- Claim C2: for every receipt list with pipe-free agent ids (the
specification restricts agent ids to lowercase hex, which contain no pipe),
net_receipts succeeds and emits, for each ordered pair (a, b) of distinct
ids with directed gross flows x = gross a to b and y = gross b to a, exactly
one obligation from a to b of amount x - y when x > y and none otherwise;
participants is the sorted duplicate-free list of all payer and payee ids and
total_volume is the sum of all receipt prices.  On the spec example the
result is exactly the obligation list [A to B for 70], participants
[A, B, C] and total volume 230, for every hash function. -/
theorem claim_C2_netting_pairs :
    (∀ (hashFn : MSR → String) (rs : List MSR),
      (∀ r ∈ rs, pipeFree r.payer_agent_id ∧ pipeFree r.payee_agent_id) →
      ∃ res, net_receipts hashFn rs = .ok res ∧
        (∀ a b : String, pipeFree a → pipeFree b → a ≠ b →
          res.obligations.filter (fun o => o.from_agent = a ∧ o.to_agent = b) =
            if gross rs b a < gross rs a b
            then [⟨a, b, gross rs a b - gross rs b a⟩] else []) ∧
        (∀ x, x ∈ res.participants ↔
          ∃ r ∈ rs, x = r.payer_agent_id ∨ x = r.payee_agent_id) ∧
        List.Sorted sleProp res.participants ∧ res.participants.Nodup ∧
        res.total_volume = (rs.map MSR.price_usd_micros).sum) ∧
    (∀ hashFn : MSR → String, ∃ res,
      net_receipts hashFn exampleReceipts = .ok res ∧
      res.obligations = [⟨"A", "B", 70⟩] ∧ res.participants = ["A", "B", "C"] ∧
      res.total_volume = 230) := by
  refine ⟨fun hashFn rs hpf => net_receipts_ok hashFn rs hpf, fun hashFn => ?_⟩
  have hc := net_receipts_core_congr hashFn (fun _ => "") exampleReceipts
  rw [net_receipts_example] at hc
  cases hres : net_receipts hashFn exampleReceipts with
  | error e =>
    rw [hres] at hc
    exact absurd hc (by simp [Except.map])
  | ok res =>
    rw [hres] at hc
    simp only [Except.map, Except.ok.injEq, Prod.mk.injEq] at hc
    exact ⟨res, rfl, hc.1, hc.2.1, hc.2.2⟩

theorem claim_C2_witness :
    ∃ res, net_receipts (fun _ => "") exampleReceipts = .ok res ∧
      (∀ a b : String, pipeFree a → pipeFree b → a ≠ b →
        res.obligations.filter (fun o => o.from_agent = a ∧ o.to_agent = b) =
          if gross exampleReceipts b a < gross exampleReceipts a b
          then [⟨a, b, gross exampleReceipts a b - gross exampleReceipts b a⟩] else []) ∧
      (∀ x, x ∈ res.participants ↔
        ∃ r ∈ exampleReceipts, x = r.payer_agent_id ∨ x = r.payee_agent_id) ∧
      List.Sorted sleProp res.participants ∧ res.participants.Nodup ∧
      res.total_volume = (exampleReceipts.map MSR.price_usd_micros).sum :=
  claim_C2_netting_pairs.1 (fun _ => "") exampleReceipts (by decide)

theorem claim_C3_witness :
    net_receipts (fun _ => "") [mBA, mAB] = net_receipts (fun _ => "") [mAB, mBA] :=
  claim_C3_permutation_invariance (fun _ => "") [mBA, mAB] [mAB, mBA]
    (List.Perm.swap mAB mBA [])

/-- Claim C9: with no validity precondition on the receipts, whenever
net_receipts returns a result, every emitted obligation has distinct
endpoints and a strictly positive amount, both endpoints are listed in
participants, and consequently the per-obligation checks of verify_ian all
pass. -/
theorem claim_C9_obligation_invariants (hashFn : MSR → String) (rs : List MSR)
    (res : NettingResult) (h : net_receipts hashFn rs = .ok res) :
    (∀ o ∈ res.obligations, o.from_agent ≠ o.to_agent ∧ 0 < o.amount_usd_micros ∧
      o.from_agent ∈ res.participants ∧ o.to_agent ∈ res.participants) ∧
    check_obligations res.participants res.obligations = none := by
  simp only [net_receipts, Bind.bind] at h
  cases hpl : pairLoop (buildBalances (List.insertionSort (hashLe hashFn) rs))
      (sortStr ((buildBalances (List.insertionSort (hashLe hashFn) rs)).map Prod.fst))
      [] [] with
  | error e =>
    rw [hpl] at h
    exact absurd h (by simp [Except.bind])
  | ok net =>
    rw [hpl] at h
    simp only [Except.bind] at h
    cases hob : obligationsOf net with
    | error e =>
      rw [hob] at h
      exact absurd h (by simp [Except.bind])
    | ok obls =>
      rw [hob] at h
      simp only [Except.bind, pure, Except.pure, Except.ok.injEq] at h
      have hnd : (net.map Prod.fst).Nodup := pairLoop_nodup hpl (by simp)
      simp only [obligationsOf] at hob
      have hmain : ∀ o ∈ obls, o.from_agent ≠ o.to_agent ∧ 0 < o.amount_usd_micros ∧
          o.from_agent ∈ sortStr (((List.insertionSort (hashLe hashFn) rs).bind fun r =>
            [r.payer_agent_id, r.payee_agent_id]).dedup) ∧
          o.to_agent ∈ sortStr (((List.insertionSort (hashLe hashFn) rs).bind fun r =>
            [r.payer_agent_id, r.payee_agent_id]).dedup) := by
        intro o ho
        obtain ⟨k, hkks, hmk⟩ := oblLoop_mem hob o ho
        obtain ⟨v, hv⟩ := exists_mem_of_mem_keys (mem_sortStr.mp hkks)
        rcases pairLoop_mem hpl (k, v) hv with hmem | hdata
        · exact absurd hmem (List.not_mem_nil _)
        obtain ⟨a, b, ha, hb, hab, hk2, hkeymem, hlt, hval⟩ := hdata
        obtain ⟨hsk, hamt⟩ := mkObl_ok hmk
        have hk3 : k = pairKey a b := hk2
        rw [hk3, splitKey_pairKey ha hb] at hsk
        have hfrom : o.from_agent = a := by
          have := (List.cons.injEq _ _ _ _ ▸ hsk.symm).1
          exact this
        have hto : o.to_agent = b := by
          have h4 := (List.cons.injEq _ _ _ _ ▸ hsk.symm).2
          have h5 := (List.cons.injEq _ _ _ _ ▸ h4).1
          exact h5
        have hdg : dget net k 0 = v := dget_of_mem hv hnd
        have hpos : 0 < o.amount_usd_micros := by
          rw [hamt, hdg]
          have hv2 : v = dget (buildBalances (List.insertionSort (hashLe hashFn) rs))
              (pairKey a b) 0
            - dget (buildBalances (List.insertionSort (hashLe hashFn) rs))
              (pairKey b a) 0 := hval
          rw [hv2]
          omega
        refine ⟨by rw [hfrom, hto]; exact hab, hpos, ?_, ?_⟩
        · rcases hkeymem with hm | hm
          · exact hfrom ▸ (endpoint_mem_participants ha hb hm).1
          · exact hfrom ▸ (endpoint_mem_participants hb ha hm).2
        · rcases hkeymem with hm | hm
          · exact hto ▸ (endpoint_mem_participants ha hb hm).2
          · exact hto ▸ (endpoint_mem_participants hb ha hm).1
      rw [← h]
      refine ⟨hmain, check_obligations_none (fun o ho => ?_)⟩
      obtain ⟨h1, h2, h3, h4⟩ := hmain o ho
      exact ⟨h3, h4, h1, h2⟩

theorem claim_C9_witness :
    (∀ o ∈ ([⟨"A", "B", 70⟩] : List NetObligation),
      o.from_agent ≠ o.to_agent ∧ 0 < o.amount_usd_micros ∧
      o.from_agent ∈ ["A", "B", "C"] ∧ o.to_agent ∈ ["A", "B", "C"]) ∧
    check_obligations ["A", "B", "C"] [⟨"A", "B", 70⟩] = none :=
  claim_C9_obligation_invariants (fun _ => "") exampleReceipts
    ⟨[⟨"A", "B", 70⟩], ["A", "B", "C"], ["", "", "", ""], 230⟩ rfl

end Primordia
